import Mathlib

/-!
Verification of the GoInsight game/board model and SGF transcoding layer.

This file contains a shallow embedding of the Python modules
src/src/data/sgf.py, src/src/data/move.py, src/src/data/board.py and
src/src/data/game.py, together with theorems settling the specification
claims about SGF parsing and serialization, coordinate transcoding,
capture resolution and turn logic.

Conventions of the embedding:
- Python strings are modelled as lists of characters (Str).
- Python sets are modelled as duplicate-free lists; only membership and
  emptiness of these lists matter in statements.
- Python dicts (insertion-ordered, unique keys) are modelled as association
  lists kept unique by an update operation mirroring dict.update.
- Python exceptions are modelled by explicit error values in Except;
  ValueError messages are mapped to dedicated error constructors,
  IndexError and TypeError to generic ones.
- The imperative cursor of the recursive-descent parser is modelled by
  consuming a suffix of the character list; the unbounded while loops are
  driven by a fuel parameter that the top level instantiates with a bound
  large enough for every terminating run (the fuel error is unreachable
  there, and the theorems below establish the needed bounds explicitly).
-/

namespace GoInsight

abbrev Str := List Char

/-- whitespace characters split on (and removed) by Python str.split() in the
ASCII range; sgf.py strips them with a join of input.split(). -/
def isWs (c : Char) : Bool :=
  c == ' ' || c == '\t' || c == '\n' || c == '\r' || c == '\x0b' || c == '\x0c'

/-- errors of the SGF parser in sgf.py: the four ValueError messages of parse,
plus out-of-range string access (Python IndexError) and fuel exhaustion of the
embedding (never reached with the bound chosen by parse). -/
inductive PErr where
  | treeMissing
  | notUppercase
  | noDelimiter
  | noNodes
  | oob
  | fuel
deriving DecidableEq, Repr

/-- an SGF tree node (sgf.py, class SgfTree): a property map in insertion
order and an ordered list of children. -/
inductive SgfTree where
  | node (properties : List (Str × List Str)) (children : List SgfTree)

/-- properties accessor of an SgfTree. -/
def SgfTree.properties : SgfTree → List (Str × List Str)
  | .node ps _ => ps

/-- children accessor of an SgfTree. -/
def SgfTree.children : SgfTree → List SgfTree
  | .node _ cs => cs

/-- Python dict.update with a one-entry dict: replace the value in place when
the key is present, append the entry otherwise (sgf.py, properties.update). -/
def dictUpdate (ps : List (Str × List Str)) (kv : Str × List Str) :
    List (Str × List Str) :=
  if ps.any (fun p => decide (p.1 = kv.1)) then
    ps.map (fun p => if p.1 = kv.1 then kv else p)
  else ps ++ [kv]

/-- prefixing of a character onto the value of a successful scan. -/
def consRes (c : Char) : Except PErr (Str × Str) → Except PErr (Str × Str)
  | .error e => .error e
  | .ok (v, r) => .ok (c :: v, r)

mutual

/-- scan of one bracketed property value (sgf.py, parse.get_property inner
while loop), fuel-driven: consume characters until the closing bracket,
translating a tab to a space, handling a backslash via the escape scanner,
and copying anything else; returns the value and the characters after the
closing bracket.  Running off the end of the input is Python's IndexError. -/
def scanValueF : Nat → Str → Except PErr (Str × Str)
  | 0, _ => .error .fuel
  | _ + 1, [] => .error .oob
  | f + 1, c :: rest =>
    if c = ']' then .ok ([], rest)
    else if c = '\t' then consRes ' ' (scanValueF f rest)
    else if c = '\\' then scanValueEscF f rest
    else consRes c (scanValueF f rest)

/-- the character after a backslash: an escaped closing bracket or backslash
is copied bare, a newline is elided with the backslash (soft line break), and
any other lone backslash is skipped, the loop resuming at that character
(which it copies, a tab becoming a space). -/
def scanValueEscF : Nat → Str → Except PErr (Str × Str)
  | 0, _ => .error .fuel
  | _ + 1, [] => .error .oob
  | f + 1, d :: rest2 =>
    if d = ']' ∨ d = '\\' then consRes d (scanValueF f rest2)
    else if d = '\n' then scanValueF f rest2
    else consRes (if d = '\t' then ' ' else d) (scanValueF f rest2)

end

/-- scan of a maximal run of uppercase letters (sgf.py, get_property's
while input.isupper() loop); fails at end of input like Python's indexing. -/
def scanUpper : Str → Except PErr (Str × Str)
  | [] => .error .oob
  | c :: rest =>
    if c.isUpper then
      match scanUpper rest with
      | .error e => .error e
      | .ok (k, r) => .ok (c :: k, r)
    else .ok ([], c :: rest)

/-- loop collecting further bracketed values while the next character is an
opening bracket (sgf.py, get_property's while input == opening bracket
loop), fuel-driven. -/
def parseValuesF : Nat → Str → Except PErr (List Str × Str)
  | 0, _ => .error .fuel
  | _ + 1, [] => .error .oob
  | f + 1, c :: rest =>
    if c = '[' then
      match scanValueF f rest with
      | .error e => .error e
      | .ok (v, r) =>
        match parseValuesF f r with
        | .error e => .error e
        | .ok (vs, r2) => .ok (v :: vs, r2)
    else .ok ([], c :: rest)

/-- one property (sgf.py, parse.get_property): an uppercase key, failing on a
lowercase character or a missing opening bracket, then at least one value. -/
def getPropertyF (f : Nat) (l : Str) : Except PErr ((Str × List Str) × Str) :=
  match scanUpper l with
  | .error e => .error e
  | .ok (key, r) =>
    match r with
    | [] => .error .oob
    | c :: rest =>
      if c.isLower then .error .notUppercase
      else if c ≠ '[' then .error .noDelimiter
      else
        match scanValueF f rest with
        | .error e => .error e
        | .ok (v, r1) =>
          match parseValuesF f r1 with
          | .error e => .error e
          | .ok (vs, r2) => .ok ((key, v :: vs), r2)

/-- loop collecting properties while the next character is not a parenthesis
or semicolon (sgf.py, parse.get_node's first while loop), accumulating with
dict.update. -/
def parsePropsF : Nat → Str → List (Str × List Str) →
    Except PErr (List (Str × List Str) × Str)
  | 0, _, _ => .error .fuel
  | _ + 1, [], _ => .error .oob
  | f + 1, c :: rest, acc =>
    if c = '(' ∨ c = ')' ∨ c = ';' then .ok (acc, c :: rest)
    else
      match getPropertyF f (c :: rest) with
      | .error e => .error e
      | .ok (kv, r) => parsePropsF f r (dictUpdate acc kv)

/-- skipping of consecutive opening parentheses (sgf.py, parse.get_node's
while input == opening parenthesis loop); fails at end of input. -/
def skipParens : Str → Except PErr Str
  | [] => .error .oob
  | c :: rest => if c = '(' then skipParens rest else .ok (c :: rest)

mutual

/-- one node (sgf.py, parse.get_node): skip opening parentheses, reject an
immediate closing parenthesis as a tree with no nodes, consume one character
(the semicolon), parse the properties, then parse children until a closing
parenthesis or the end of input, and finally advance past one character. -/
def parseNodeF : Nat → Str → Except PErr (SgfTree × Str)
  | 0, _ => .error .fuel
  | f + 1, l =>
    match skipParens l with
    | .error e => .error e
    | .ok [] => .error .oob
    | .ok (c :: rest) =>
      if c = ')' then .error .noNodes
      else
        match parsePropsF f rest [] with
        | .error e => .error e
        | .ok (ps, l2) =>
          match parseChildrenF f l2 with
          | .error e => .error e
          | .ok (cs, l3) => .ok (.node ps cs, l3.drop 1)

/-- children loop of get_node: while the cursor is in range and not at a
closing parenthesis, parse another child node. -/
def parseChildrenF : Nat → Str → Except PErr (List SgfTree × Str)
  | 0, _ => .error .fuel
  | _ + 1, [] => .ok ([], [])
  | f + 1, c :: rest =>
    if c = ')' then .ok ([], c :: rest)
    else
      match parseNodeF f (c :: rest) with
      | .error e => .error e
      | .ok (t, r) =>
        match parseChildrenF f r with
        | .error e => .error e
        | .ok (ts, r2) => .ok (t :: ts, r2)

end

/-- sgf.py, parse: fail with tree missing unless the raw text starts with an
opening parenthesis, strip all whitespace, then run get_node from position 1
and return its tree.  The fuel bound exceeds the worst-case loop count of the
Python parser on the given input. -/
def parse (s : Str) : Except PErr SgfTree :=
  match s with
  | '(' :: rest =>
    match parseNodeF (4 * (('(' :: rest).filter (fun c => !(isWs c))).length + 8)
        ((('(' :: rest).filter (fun c => !(isWs c))).drop 1) with
    | .error e => .error e
    | .ok (t, _) => .ok t
  | _ => .error .treeMissing

/-- escaping of one property value (sgf.py, serialize.escape_value): each
backslash and each closing bracket is preceded by a backslash. -/
def escapeVal (v : Str) : Str :=
  v.flatMap (fun c => if c = '\\' ∨ c = ']' then ['\\', c] else [c])

/-- serialized form of a property's value list: each escaped value in
brackets. -/
def valuesStr (vs : List Str) : Str :=
  vs.flatMap (fun v => '[' :: escapeVal v ++ [']'])

/-- serialized form of one property: the key followed by its bracketed values
(sgf.py, serialize.serialize_node's loop body). -/
def propStr (p : Str × List Str) : Str :=
  p.1 ++ valuesStr p.2

/-- serialized form of a node's property map in insertion order. -/
def propsStr (ps : List (Str × List Str)) : Str :=
  ps.flatMap propStr

/-- serialized form of one node without children (sgf.py,
serialize.serialize_node): a semicolon followed by the properties in order. -/
def serializeNode (ps : List (Str × List Str)) : Str :=
  ';' :: propsStr ps

mutual

/-- sgf.py, serialize: the node itself, then nothing for no children, the bare
serialization of a sole child, or one parenthesized block per child when there
are several. -/
def serialize : SgfTree → Str
  | .node ps [] => serializeNode ps
  | .node ps (c :: cs) =>
    if cs.isEmpty then serializeNode ps ++ serialize c
    else serializeNode ps ++ serializeList (c :: cs)

/-- parenthesized serialization of a list of children (sgf.py, serialize's
join over children). -/
def serializeList : List SgfTree → Str
  | [] => []
  | c :: cs => '(' :: serialize c ++ [')'] ++ serializeList cs

end

/-- association-list lookup mirroring Python dict access by key. -/
def lookupProp (ps : List (Str × List Str)) (k : Str) : Option (List Str) :=
  match ps with
  | [] => none
  | p :: r => if p.1 = k then some p.2 else lookupProp r k

/-- property-map equality of SgfTree.eq in sgf.py: every key of one side is
present on the other with the same ordered value list, and conversely every
key of the other side is present on the first. -/
def eqProps (ps qs : List (Str × List Str)) : Bool :=
  ps.all (fun p =>
    match lookupProp qs p.1 with
    | some v => decide (v = p.2)
    | none => false) &&
  qs.all (fun q => (lookupProp ps q.1).isSome)

mutual

/-- structural equality of sgf.py's SgfTree.eq: equal property maps and
pairwise equal children lists of the same length. -/
def eqTree : SgfTree → SgfTree → Bool
  | .node ps cs, .node qs ds => eqProps ps qs && eqTreeList cs ds

/-- pairwise equality of children lists, false on a length mismatch. -/
def eqTreeList : List SgfTree → List SgfTree → Bool
  | [], [] => true
  | a :: l1, b :: l2 => eqTree a b && eqTreeList l1 l2
  | _, _ => false

end

example : parse ( "(;C[hello])".data) =
    .ok (.node [( "C".data, [ "hello".data])] []) := by rfl

example : parse ( "(;(;(;))(;))".data) =
    .ok (.node [] [.node [] [.node [] []], .node [] []]) := by rfl

example :
    serialize (.node [] [.node [] [.node [] []], .node [] []]) =
      ";(;;)(;)".data := by rfl

example : parse ( "(;(;;)(;))".data) =
    .ok (.node [] [.node [] [.node [] [], .node [] []]]) := by rfl

/-! ## Move, Board and Game (move.py, board.py, game.py) -/

/-- errors of the game/board layer: the ValueError raised for an invalid
position or move, the ValueError raised for malformed GTP or SGF input or a
non-integer string, Python's IndexError, and Python's TypeError (raised when a
pass move's absent position is unpacked). -/
inductive GErr where
  | invalidPos
  | valueErr
  | oob
  | typeErr
deriving DecidableEq, Repr

/-- Modelled from the spec: src/src/data/constants.py is not under src/; the
GTP column alphabet is the 25-letter uppercase alphabet skipping I (spec 4.2),
as also pinned by tests/data/test_board.py. -/
def VALID_COLUMN_GTP : Str := "ABCDEFGHJKLMNOPQRSTUVWXYZ".data

/-- Modelled from the spec: src/src/data/constants.py is not under src/; the
SGF coordinate alphabet is the 26-letter lowercase alphabet (spec 4.2). -/
def VALID_COLUMN_SGF : Str := "abcdefghijklmnopqrstuvwxyz".data

/-- Modelled from the spec: src/src/data/constants.py is not under src/; the
fixed auxiliary root properties of to_sgftree form a canonical GM/FF/CA
identification block (spec 4.4); no claim depends on the exact entries. -/
def SGF_PROPERTIES : List (Str × List Str) :=
  [( "GM".data, [ "1".data]), ( "FF".data, [ "4".data]),
   ( "CA".data, [ "UTF-8".data])]

/-- Python str.index for a single character: the first index of the character,
ValueError when absent. -/
def pyIndex (l : Str) (c : Char) : Option Nat :=
  match l with
  | [] => none
  | d :: rest => if d = c then some 0 else (pyIndex rest c).map (· + 1)

/-- Python str.split(sep) with a one-character separator: split at every
occurrence, keeping empty pieces. -/
def pySplit (sep : Char) : Str → List Str
  | [] => [[]]
  | c :: rest =>
    match pySplit sep rest with
    | [] => [[c]]
    | g :: gs => if c = sep then [] :: g :: gs else (c :: g) :: gs

/-- lowercasing of a string, Python str.lower on ASCII. -/
def toLowerStr (s : Str) : Str := s.map Char.toLower

/-- uppercasing of a string, Python str.upper on ASCII. -/
def toUpperStr (s : Str) : Str := s.map Char.toUpper

/-- decimal digit value of a character, none for a non-digit. -/
def digitVal (c : Char) : Option Nat :=
  if '0' ≤ c ∧ c ≤ '9' then some (c.toNat - 48) else none

/-- accumulator loop of decimal parsing. -/
def natParseAux : Str → Nat → Option Nat
  | [], acc => some acc
  | c :: r, acc =>
    match digitVal c with
    | some d => natParseAux r (10 * acc + d)
    | none => none

/-- parsing of a nonempty all-digit string as a natural number. -/
def natParse : Str → Option Nat
  | [] => none
  | l => natParseAux l 0

/-- Python int(s) on the inputs the model meets: an optional sign followed by
at least one decimal digit; None models the ValueError. -/
def intParse : Str → Option Int
  | [] => none
  | c :: r =>
    if c = '-' then (natParse r).map (fun n => -(n : Int))
    else if c = '+' then (natParse r).map (fun n => (n : Int))
    else (natParse (c :: r)).map (fun n => (n : Int))

/-- little-endian base-10 digit list, fuel-driven so that it evaluates by
definitional reduction; the fuel n is always sufficient. -/
def natDigitsAux : Nat → Nat → List Nat
  | 0, _ => []
  | f + 1, n => if n = 0 then [] else (n % 10) :: natDigitsAux f (n / 10)

/-- little-endian base-10 digits of a natural number. -/
def natDigits (n : Nat) : List Nat := natDigitsAux n n

/-- decimal representation of a natural number (Python str on a
nonnegative int). -/
def natRepr (n : Nat) : Str :=
  if n = 0 then ['0'] else ((natDigits n).map Nat.digitChar).reverse

/-- decimal representation of an integer (Python str on an int). -/
def intRepr (i : Int) : Str :=
  if i < 0 then '-' :: natRepr (-i).toNat else natRepr i.toNat

/-- a move (move.py, class Move): the color string as stored ('b', 'w', 'B' or
'W'), the optional zero-based board position (none is a pass), and the turn
index assigned by Game.play (None until then). -/
structure PyMove where
  color : Str
  pos : Option (Int × Int)
  turn : Option Nat
deriving DecidableEq

/-- the board grid (board.py): a list of rows, each cell empty or holding the
move that placed the stone there. -/
abbrev Grid := List (List (Option PyMove))

/-- a board (board.py, class Board): its (width, height) size and its grid.
The owning game is not stored; operations that consult it take it as an
argument. -/
structure PyBoard where
  size : Int × Int
  grid : Grid
deriving DecidableEq

/-- cell read board[y][x] for nonnegative in-range coordinates; every caller
in board.py guards the bounds first, so Python's negative-index wraparound and
IndexError are never exercised and out-of-range reads are mapped to an empty
result here. -/
def cellAt (g : Grid) (x y : Int) : Option PyMove :=
  if x < 0 ∨ y < 0 then none
  else (((g.get? y.toNat).getD []).get? x.toNat).getD none

/-- cell write board[y][x] = v for nonnegative in-range coordinates (same
guard discipline as cellAt). -/
def setCell (g : Grid) (x y : Int) (v : Option PyMove) : Grid :=
  if x < 0 ∨ y < 0 then g
  else
    match g.get? y.toNat with
    | some row => g.set y.toNat (row.set x.toNat v)
    | none => g

/-- the empty grid of board.py's board_from_moves comprehension:
size[1] rows of size[0] empty cells. -/
def emptyGrid (size : Int × Int) : Grid :=
  List.replicate size.2.toNat (List.replicate size.1.toNat none)

/-- board.py, is_valid_pos against an explicit grid of known size: reject a
negative coordinate, a coordinate at or beyond the size, or an occupied
cell. -/
def isValidPosOn (g : Grid) (w h : Int) (pos : Int × Int) : Bool :=
  if pos.1 < 0 ∨ pos.2 < 0 then false
  else if pos.1 ≥ w ∨ pos.2 ≥ h then false
  else if (cellAt g pos.1 pos.2).isSome then false
  else true

/-- board.py, Board.is_valid_pos with the default board argument. -/
def is_valid_pos (b : PyBoard) (pos : Int × Int) : Bool :=
  isValidPosOn b.grid b.size.1 b.size.2 pos

/-- board.py, Board.add_move: fail on an invalid position (a pass move's
absent position would already fail the unpacking inside is_valid_pos with a
TypeError), otherwise occupy the cell.  No capture resolution happens here. -/
def add_move (b : PyBoard) (m : PyMove) : Except GErr PyBoard :=
  match m.pos with
  | none => .error .typeErr
  | some (x, y) =>
    if is_valid_pos b (x, y) then .ok { b with grid := setCell b.grid x y (some m) }
    else .error .invalidPos

/-- board.py, Board.remove_move: clear the cell whenever the position is in
bounds, regardless of the cell's current content; fail with a ValueError only
out of bounds (and with a TypeError on a pass move's absent position). -/
def remove_move (b : PyBoard) (m : PyMove) : Except GErr PyBoard :=
  match m.pos with
  | none => .error .typeErr
  | some (x, y) =>
    if 0 ≤ x ∧ x < b.size.1 ∧ 0 ≤ y ∧ y < b.size.2 then
      .ok { b with grid := setCell b.grid x y none }
    else .error .invalidPos

/-- board.py, Board.neighbors: the in-bounds orthogonal neighbors, in the
order left, right, up, down. -/
def neighbors (w h x y : Int) : List (Int × Int) :=
  (if x > 0 then [(x - 1, y)] else []) ++
  (if x < w - 1 then [(x + 1, y)] else []) ++
  (if y > 0 then [(x, y - 1)] else []) ++
  (if y < h - 1 then [(x, y + 1)] else [])

/-- one neighbor step of the flood fill in board.py's group_and_liberties:
an empty neighbor joins the liberties, an unvisited same-color neighbor joins
the visited set and the stack. -/
def galStep (b : PyBoard) (color : Str) (st : List (Int × Int) × List (Int × Int) × List (Int × Int))
    (n : Int × Int) : List (Int × Int) × List (Int × Int) × List (Int × Int) :=
  let (stack, visited, libs) := st
  match cellAt b.grid n.1 n.2 with
  | none => (stack, visited, if n ∈ libs then libs else libs ++ [n])
  | some m =>
    if toLowerStr m.color = color ∧ n ∉ visited then (n :: stack, visited ++ [n], libs)
    else (stack, visited, libs)

/-- the while-stack loop of board.py's group_and_liberties, fuel-driven; each
iteration pops one coordinate, adds it to the group and folds galStep over its
neighbors.  The sets of the Python code are modelled as duplicate-free
lists. -/
def galLoop (b : PyBoard) (color : Str) :
    Nat → List (Int × Int) → List (Int × Int) → List (Int × Int) → List (Int × Int) →
    List (Int × Int) × List (Int × Int)
  | 0, _, _, group, libs => (group, libs)
  | _ + 1, [], _, group, libs => (group, libs)
  | f + 1, p :: stack, visited, group, libs =>
    let st := (neighbors b.size.1 b.size.2 p.1 p.2).foldl (galStep b color) (stack, visited, libs)
    galLoop b color f st.1 st.2.1 (group ++ [p]) st.2.2

/-- board.py, Board.group_and_liberties: the connected same-color group of
the stone at start together with its liberties; both empty when the cell is
empty. -/
def group_and_liberties (b : PyBoard) (start : Int × Int) :
    List (Int × Int) × List (Int × Int) :=
  match cellAt b.grid start.1 start.2 with
  | none => ([], [])
  | some m =>
    galLoop b (toLowerStr m.color) (b.size.1.toNat * b.size.2.toNat + 1)
      [start] [start] [] []

/-- lexicographic order on coordinate pairs (Python tuple comparison used by
sorted). -/
def lexLe (p q : Int × Int) : Bool :=
  decide (p.1 < q.1) || (decide (p.1 = q.1) && decide (p.2 ≤ q.2))

/-- insertion into a lexicographically sorted list. -/
def insertLex (p : Int × Int) : List (Int × Int) → List (Int × Int)
  | [] => [p]
  | q :: r => if lexLe p q then p :: q :: r else q :: insertLex p r

/-- insertion sort by the lexicographic order (Python sorted on tuples). -/
def sortLex : List (Int × Int) → List (Int × Int)
  | [] => []
  | p :: r => insertLex p (sortLex r)

/-- the scan order of update_board: all coordinates row by row. -/
def scanCells (w h : Nat) : List (Int × Int) :=
  (List.range h).flatMap (fun y => (List.range w).map (fun x => ((x : Int), (y : Int))))

/-- one scanned cell of board.py's update_board: skip an empty or visited
cell, otherwise compute its group and liberties, mark the group visited and
schedule it for removal when it has no liberties. -/
def updateStep (b : PyBoard) (st : List (Int × Int) × List (Int × Int)) (p : Int × Int) :
    List (Int × Int) × List (Int × Int) :=
  let (toRemove, visited) := st
  match cellAt b.grid p.1 p.2 with
  | none => (toRemove, visited)
  | some _ =>
    if p ∈ visited then (toRemove, visited)
    else
      let gl := group_and_liberties b p
      let visited2 := visited ++ gl.1.filter (fun q => q ∉ visited)
      if gl.2.length = 0 then
        (toRemove ++ gl.1.filter (fun q => q ∉ toRemove), visited2)
      else (toRemove, visited2)

/-- board.py, Board.update_board: scan the whole board, collect every group
without liberties, clear all its stones in one sweep, and return the board
with the sorted list of removed coordinates. -/
def update_board (b : PyBoard) : PyBoard × List (Int × Int) :=
  let toRemove :=
    ((scanCells b.size.1.toNat b.size.2.toNat).foldl (updateStep b) ([], [])).1
  ({ b with grid := toRemove.foldl (fun g p => setCell g p.1 p.2 none) b.grid },
   sortLex toRemove)

/-- a game (game.py, class Game): ruleset, (width, height) size, komi kept as
its source string (the float conversion carries no information any claim
uses), handicap, the move list and the owned board, plus the raw AB/AW
setup-coordinate lists. -/
structure Game where
  ruleset : Str
  size : Int × Int
  komi : Str
  handicap : Int
  moves : List PyMove
  board : PyBoard
  AB : Option (List Str)
  AW : Option (List Str)
deriving DecidableEq

/-- game.py, Game.next_color: Black on an empty move list unless the handicap
is at least two, otherwise the color opposite to the last move's color. -/
def next_color (g : Game) : Str :=
  match g.moves.getLast? with
  | none => if g.handicap < 2 then "B".data else "W".data
  | some m => if toUpperStr m.color = "B".data then "W".data else "B".data

/-- move.py, Move's constructor: keep the color when it is one of the four
valid tokens and ask next_color otherwise; validate a present position
against the game's board (bounds and occupancy), failing with a ValueError
on an invalid one; the turn starts unassigned. -/
def mkMove (g : Game) (color : Option Str) (pos : Option (Int × Int)) :
    Except GErr PyMove :=
  let c :=
    match color with
    | some c =>
      if c = "B".data ∨ c = "W".data ∨ c = "b".data ∨ c = "w".data then c
      else next_color g
    | none => next_color g
  match pos with
  | some p =>
    if is_valid_pos g.board p then .ok { color := c, pos := pos, turn := none }
    else .error .invalidPos
  | none => .ok { color := c, pos := none, turn := none }

/-- move.py, Move.sgf_to_coord: none for the empty string, otherwise the
indices of the first two characters in the SGF alphabet, a ValueError for a
character outside it and an IndexError for a one-character string. -/
def sgf_to_coord (s : Str) : Except GErr (Option (Int × Int)) :=
  match s with
  | [] => .ok none
  | c0 :: rest =>
    match pyIndex VALID_COLUMN_SGF c0 with
    | none => .error .valueErr
    | some x =>
      match rest with
      | [] => .error .oob
      | c1 :: _ =>
        match pyIndex VALID_COLUMN_SGF c1 with
        | none => .error .valueErr
        | some y => .ok (some ((x : Int), (y : Int)))

/-- move.py, Move.from_gtp: split on single spaces, require exactly two
tokens, a color lowering to b or w, then either a pass or a column letter
indexed in the GTP alphabet (ValueError when absent) and a row parsed as an
integer; the decoded row height - row is bounds-checked against
game.size[0] - 1, the board's width (the check the specification describes
against the height); finally the move constructor re-validates the position
against the board. -/
def from_gtp (g : Game) (gtp : Str) : Except GErr PyMove :=
  match pySplit ' ' gtp with
  | [color, gtpPos] =>
    if toLowerStr color = "b".data ∨ toLowerStr color = "w".data then
      if gtpPos = "pass".data then mkMove g (some (toLowerStr color)) none
      else
        match gtpPos with
        | [] => .error .oob
        | c :: digitsPart =>
          match pyIndex VALID_COLUMN_GTP c.toUpper with
          | none => .error .valueErr
          | some x =>
            match intParse digitsPart with
            | none => .error .valueErr
            | some n =>
              if 0 ≤ g.size.2 - n ∧ g.size.2 - n ≤ g.size.1 - 1 then
                mkMove g (some (toLowerStr color)) (some ((x : Int), g.size.2 - n))
              else .error .valueErr
    else .error .valueErr
  | _ => .error .valueErr

/-- move.py, Move.to_gtp: the stored color, a space, then pass or the GTP
column letter and the bottom-based row game.size[1] - y.  A negative column
index (never produced by a validated move) is mapped to an error rather than
Python's wraparound. -/
def to_gtp (g : Game) (m : PyMove) : Except GErr Str :=
  match m.pos with
  | none => .ok (m.color ++ ' ' :: "pass".data)
  | some (x, y) =>
    if 0 ≤ x then
      match VALID_COLUMN_GTP.get? x.toNat with
      | some col => .ok (m.color ++ ' ' :: col :: intRepr (g.size.2 - y))
      | none => .error .oob
    else .error .oob

/-- move.py, Move.to_sgf: unpacking the absent position of a pass raises a
TypeError; otherwise the two SGF letters of the position under the uppercased
color key (an IndexError for a coordinate beyond the alphabet, never reached
by a validated move). -/
def to_sgf (m : PyMove) : Except GErr (List (Str × List Str)) :=
  match m.pos with
  | none => .error .typeErr
  | some (x, y) =>
    if 0 ≤ x ∧ 0 ≤ y then
      match VALID_COLUMN_SGF.get? x.toNat, VALID_COLUMN_SGF.get? y.toNat with
      | some cx, some cy => .ok [(toUpperStr m.color, [[cx, cy]])]
      | _, _ => .error .oob
    else .error .oob

/-- game.py, Game.place with a single position: construct the move (color
kept verbatim when valid) and add it to the board without registering it in
the move list. -/
def placeOne (g : Game) (color : Str) (pos : Option (Int × Int)) : Except GErr Game :=
  match mkMove g (some color) pos with
  | .error e => .error e
  | .ok m =>
    match add_move g.board m with
    | .error e => .error e
    | .ok b => .ok { g with board := b }

/-- game.py, Game.place with a list of positions: place each in order. -/
def placeList (g : Game) (color : Str) (ps : List (Option (Int × Int))) :
    Except GErr Game :=
  ps.foldlM (fun g p => placeOne g color p) g

/-- one AB/AW setup pass: decode every SGF coordinate and place the stones;
nothing happens for an absent or empty list (Python's truthiness test). -/
def placeSetup (g : Game) (color : Str) (l : Option (List Str)) : Except GErr Game :=
  match l with
  | none => .ok g
  | some [] => .ok g
  | some coords =>
    match coords.mapM sgf_to_coord with
    | .error e => .error e
    | .ok ps => placeList g color ps

/-- continuation of the constructor after the size is known: parse the
handicap, build the empty board, then run the AB and AW placements. -/
def mkGameAux (ru0 km0 ha0 : Str) (size : Int × Int)
    (AB AW : Option (List Str)) : Except GErr Game :=
  match intParse ha0 with
  | none => .error .valueErr
  | some ha =>
    let g : Game :=
      { ruleset := ru0, size := size, komi := km0, handicap := ha,
        moves := [], board := { size := size, grid := emptyGrid size },
        AB := AB, AW := AW }
    match placeSetup g "B".data AB with
    | .error e => .error e
    | .ok g2 =>
      match placeSetup g2 "W".data AW with
      | .error e => .error e
      | .ok g3 => .ok g3

/-- game.py, Game's constructor on the paths the claims exercise: first
elements of RU, SZ, KM and HA (IndexError when empty), the SZ value split on
a colon into one or two integers (a single value used for both dimensions),
the handicap parsed as an integer, an empty move list, the empty board of
that size, and the AB/AW setup stones decoded by sgf_to_coord and placed via
place. -/
def mkGame (RU SZ KM : List Str) (HA : List Str := [ "0".data])
    (AB AW : Option (List Str) := none) : Except GErr Game :=
  match RU, SZ, KM, HA with
  | ru0 :: _, sz0 :: _, km0 :: _, ha0 :: _ =>
    match (pySplit ':' sz0).mapM intParse with
    | none => .error .valueErr
    | some nums =>
      match nums with
      | [] => .error .oob
      | [n] =>
        mkGameAux ru0 km0 ha0 (n, n) AB AW
      | n1 :: n2 :: _ =>
        mkGameAux ru0 km0 ha0 (n1, n2) AB AW
  | _, _, _, _ => .error .oob

/-- game.py, Game.play: decode the GTP move, stamp its turn with the current
move count, then either append a pass without touching the board or place the
stone (which re-checks bounds and occupancy) and append it. -/
def play (g : Game) (gtp : Str) : Except GErr Game :=
  match from_gtp g gtp with
  | .error e => .error e
  | .ok m0 =>
    let m := { m0 with turn := some g.moves.length }
    match m.pos with
    | none => .ok { g with moves := g.moves ++ [m] }
    | some _ =>
      match add_move g.board m with
      | .error e => .error e
      | .ok b => .ok { g with board := b, moves := g.moves ++ [m] }

/-- a sequence of Game.play calls. -/
def playAll (g : Game) (l : List Str) : Except GErr Game :=
  l.foldlM play g

/-- game.py, Game.to_sgftree's loop: each move becomes a node holding its
to_sgf property, each nested as the sole child of the previous one. -/
def movesChain : List PyMove → Except GErr (List SgfTree)
  | [] => .ok []
  | m :: ms =>
    match to_sgf m with
    | .error e => .error e
    | .ok p =>
      match movesChain ms with
      | .error e => .error e
      | .ok cs => .ok [SgfTree.node p cs]

/-- game.py, Game.to_sgftree: the root properties (size formatted back as one
number or width:height, the stored ruleset, komi and handicap, the fixed
identification block, and AB/AW when present), with the move chain below. -/
def to_sgftree (g : Game) : Except GErr SgfTree :=
  let sizeStr :=
    if g.size.1 ≠ g.size.2 then intRepr g.size.1 ++ ':' :: intRepr g.size.2
    else intRepr g.size.1
  let base :=
    [( "RU".data, [g.ruleset]), ( "SZ".data, [sizeStr]),
     ( "KM".data, [g.komi]), ( "HA".data, [intRepr g.handicap])]
  let withFixed := SGF_PROPERTIES.foldl dictUpdate base
  let withAB :=
    match g.AB with
    | some ab => dictUpdate withFixed ( "AB".data, ab)
    | none => withFixed
  let withAW :=
    match g.AW with
    | some aw => dictUpdate withAB ( "AW".data, aw)
    | none => withAB
  match movesChain g.moves with
  | .error e => .error e
  | .ok cs => .ok (SgfTree.node withAW cs)

/-- concrete test fixture: a game with the given size, handicap and move
list over an empty board, used by witness statements. -/
def mkTestGame (size : Int × Int) (handicap : Int) (moves : List PyMove) : Game :=
  { ruleset := "Japanese".data, size := size, komi := "6.5".data,
    handicap := handicap, moves := moves,
    board := { size := size, grid := emptyGrid size }, AB := none, AW := none }

/-- concrete test fixture: the empty 3x3 board. -/
def b33 : PyBoard := { size := (3, 3), grid := emptyGrid (3, 3) }

/-! ## Claim theorems: board and game layer -/

set_option maxRecDepth 8000 in
/-- C1: the claim states that after playing Black at (5,5) and White at its
four orthogonal neighbors on a 19x19 board via Game.play / Board.add_move the
Black stone is removed and the cell empty.  The code never invokes
update_board from play or add_move, so the Black stone is still on the grid
with all four neighbors White; running the repository's own update_board on
that final board does remove (5,5), confirming that the capture engine agrees
with the claim and the missing call is the slip (the repository's
test_update_board also expects captures after add_move alone). -/
theorem C1_capture_not_triggered :
    ((mkGame [ "Japanese".data] [ "19".data] [ "6.5".data]).bind (fun g =>
        playAll g [ "b F14".data, "w E14".data, "w G14".data, "w F15".data,
                    "w F13".data])).map
      (fun g =>
        (cellAt g.board.grid 5 5, cellAt (update_board g.board).1.grid 5 5,
         (update_board g.board).2)) =
    .ok (some { color := "b".data, pos := some (5, 5), turn := some 0 },
         none, [(5, 5)]) := by rfl

/-- C2: the claim states that after every sequence of successful placements
every occupied cell belongs to a group with at least one liberty.  On a 3x3
board, after add_move of Black (0,0), White (1,0) and White (0,1) (all
successful), the cell (0,0) is still occupied and its group has an empty
liberty list, so a zero-liberty group persists; the repository's update_board
would remove it, but no placement path calls it. -/
theorem C2_zero_liberty_group_persists :
    (((add_move { size := (3, 3), grid := emptyGrid (3, 3) }
          { color := "b".data, pos := some (0, 0), turn := none }).bind (fun b =>
        add_move b { color := "w".data, pos := some (1, 0), turn := none })).bind (fun b =>
        add_move b { color := "w".data, pos := some (0, 1), turn := none })).map
      (fun b =>
        ((cellAt b.grid 0 0).isSome, group_and_liberties b (0, 0),
         cellAt (update_board b).1.grid 0 0)) =
    .ok (true, ([(0, 0)], []), none) := by rfl

/-- C4: the claim states that a Game built with SZ = 9:13 has size (9, 13)
(true) and that from_gtp accepts b A1, decoding it to (0, 12), with the row
accepted whenever it is below the height.  The code checks the decoded row
against game.size[0] - 1, the width, so row 12 is rejected with a ValueError
even though (0, 12) is a legal empty position of the 9x13 board. -/
theorem C4_from_gtp_row_checked_against_width :
    (mkGame [ "Japanese".data] [ "9:13".data] [ "6.5".data]).map (fun g => g.size) =
      .ok (9, 13) ∧
    ((mkGame [ "Japanese".data] [ "9:13".data] [ "6.5".data]).bind (fun g =>
        from_gtp g ( "b A1".data))) = .error .valueErr ∧
    (mkGame [ "Japanese".data] [ "9:13".data] [ "6.5".data]).map (fun g =>
        is_valid_pos g.board (0, 12)) = .ok true :=
  ⟨rfl, rfl, rfl⟩

/-- C5 counterexample: the round trip from_gtp (to_gtp m) fails for the valid
move b (0,12) on the 9x13 board (to_gtp emits b A1 and from_gtp rejects row
12 against the width 9), and for the valid move with stored color B the round
trip returns color b, not the same color string. -/
theorem C5_gtp_roundtrip_counterexample :
    ((mkGame [ "Japanese".data] [ "9:13".data] [ "6.5".data]).bind (fun g =>
        (to_gtp g { color := "b".data, pos := some (0, 12), turn := none }).bind
          (fun s => from_gtp g s))) = .error .valueErr ∧
    (mkGame [ "Japanese".data] [ "9:13".data] [ "6.5".data]).map (fun g =>
        is_valid_pos g.board (0, 12)) = .ok true ∧
    ((mkGame [ "Japanese".data] [ "19".data] [ "6.5".data]).bind (fun g =>
        (to_gtp g { color := "B".data, pos := some (0, 0), turn := none }).bind
          (fun s => from_gtp g s))).map (fun m => m.color) = .ok ( "b".data) ∧
    ( "b".data : Str) ≠ "B".data :=
  ⟨rfl, rfl, rfl, by decide⟩

/-- C8: next_color returns B on an empty move list when the handicap is below
two, W on an empty move list when the handicap is at least two (in particular
Scenario B with HA = 2 before any move), and otherwise the color opposite to
the last appended move, whether that move is a pass or not. -/
theorem C8_next_color_rule :
    (∀ g : Game, g.moves = [] → g.handicap < 2 → next_color g = "B".data) ∧
    (∀ g : Game, g.moves = [] → 2 ≤ g.handicap → next_color g = "W".data) ∧
    (∀ (g : Game) (ms : List PyMove) (m : PyMove), g.moves = ms ++ [m] →
      (toUpperStr m.color = "B".data → next_color g = "W".data) ∧
      (toUpperStr m.color ≠ "B".data → next_color g = "B".data)) ∧
    (mkGame [ "Japanese".data] [ "19".data] [ "6.5".data] [ "2".data]).map
        next_color = .ok ( "W".data) := by
  refine ⟨?_, ?_, ?_, rfl⟩
  · intro g h hh
    simp only [next_color, h, List.getLast?_nil]
    rw [if_pos hh]
  · intro g h hh
    simp only [next_color, h, List.getLast?_nil]
    rw [if_neg (by omega)]
  · intro g ms m h
    constructor
    · intro hc
      simp only [next_color, h, List.getLast?_concat]
      rw [if_pos hc]
    · intro hc
      simp only [next_color, h, List.getLast?_concat]
      rw [if_neg hc]

/-- C8 witness: the turn rule evaluated at concrete games: a fresh game gives
B, a handicap-2 game gives W, and after a single b move (and after a single
pass of color w) the rule gives W and B respectively. -/
theorem C8_next_color_rule_witness :
    next_color (mkTestGame (19, 19) 0 []) = "B".data ∧
    next_color (mkTestGame (19, 19) 2 []) = "W".data ∧
    next_color (mkTestGame (19, 19) 0
      [{ color := "b".data, pos := some (0, 0), turn := some 0 }]) = "W".data ∧
    next_color (mkTestGame (19, 19) 0
      [{ color := "w".data, pos := none, turn := some 0 }]) = "B".data :=
  ⟨C8_next_color_rule.1 _ rfl (by decide),
   C8_next_color_rule.2.1 _ rfl (by decide),
   (C8_next_color_rule.2.2.1 _ [] _ rfl).1 (by decide),
   (C8_next_color_rule.2.2.1 _ [] _ rfl).2 (by decide)⟩

/-- C9 counterexample: remove_move on a move whose cell is empty (so the grid
does not hold that move) succeeds and is a no-op instead of failing with a
consistency error. -/
theorem C9_remove_move_counterexample :
    remove_move b33 { color := "b".data, pos := some (1, 1), turn := none } =
      .ok b33 ∧
    cellAt b33.grid 1 1 = none :=
  ⟨rfl, rfl⟩

/-- C9 amended: remove_move fails (with the ValueError of board.py) exactly
when the move's position is out of bounds; in bounds it unconditionally
clears the cell, with no check that the cell currently holds the given
move. -/
theorem C9_remove_move_amended (b : PyBoard) (m : PyMove) (x y : Int)
    (hp : m.pos = some (x, y)) :
    ((0 ≤ x ∧ x < b.size.1 ∧ 0 ≤ y ∧ y < b.size.2) →
      remove_move b m = .ok { b with grid := setCell b.grid x y none }) ∧
    (¬(0 ≤ x ∧ x < b.size.1 ∧ 0 ≤ y ∧ y < b.size.2) →
      remove_move b m = .error .invalidPos) := by
  constructor
  · intro h; simp only [remove_move, hp]; rw [if_pos h]
  · intro h; simp only [remove_move, hp]; rw [if_neg h]

/-- C9 witness: the amended removal rule evaluated on a 3x3 board at the
in-bounds position (1,1) and the out-of-bounds position (5,1). -/
theorem C9_remove_move_amended_witness :
    remove_move b33 { color := "b".data, pos := some (1, 1), turn := none } =
      .ok { size := (3, 3), grid := setCell b33.grid 1 1 none } ∧
    remove_move b33 { color := "b".data, pos := some (5, 1), turn := none } =
      .error .invalidPos :=
  ⟨(C9_remove_move_amended _ _ 1 1 rfl).1 (by decide),
   (C9_remove_move_amended _ _ 5 1 rfl).2 (by decide)⟩

/-- helper for C10: a move chain containing a pass always fails, since to_sgf
of the pass raises and the chain propagates the first error. -/
theorem movesChain_pass_fails (ms : List PyMove)
    (h : ∃ m ∈ ms, m.pos = none) : ∃ e, movesChain ms = .error e := by
  induction ms with
  | nil => simp at h
  | cons m rest ih =>
    rcases h with ⟨p, hp, hpos⟩
    rcases List.mem_cons.1 hp with h1 | h1
    · subst h1
      refine ⟨.typeErr, ?_⟩
      simp only [movesChain, to_sgf, hpos]
    · rcases ih ⟨p, h1, hpos⟩ with ⟨e, he⟩
      cases hs : to_sgf m with
      | error e2 => exact ⟨e2, by simp only [movesChain, hs]⟩
      | ok v => exact ⟨e, by simp only [movesChain, hs, he]⟩

/-- C10: to_sgf is partial on passes: a move with an absent position fails
with the TypeError of unpacking None instead of producing an SGF encoding,
and consequently to_sgftree fails for every game whose move list contains at
least one pass. -/
theorem C10_to_sgf_pass_fails :
    (∀ m : PyMove, m.pos = none → to_sgf m = .error .typeErr) ∧
    (∀ g : Game, (∃ m ∈ g.moves, m.pos = none) → (to_sgftree g).isOk = false) := by
  constructor
  · intro m h
    simp only [to_sgf, h]
  · intro g h
    rcases movesChain_pass_fails g.moves h with ⟨e, he⟩
    simp only [to_sgftree, he]
    rfl

/-- C10 witness: the pass rule evaluated at a concrete pass move and at a
concrete game whose single move is that pass. -/
theorem C10_to_sgf_pass_fails_witness :
    to_sgf { color := "b".data, pos := none, turn := some 0 } = .error .typeErr ∧
    (to_sgftree (mkTestGame (19, 19) 0
      [{ color := "b".data, pos := none, turn := some 0 }])).isOk = false :=
  ⟨C10_to_sgf_pass_fails.1 _ rfl,
   C10_to_sgf_pass_fails.2 _ ⟨_, List.mem_singleton.2 rfl, rfl⟩⟩

/-! ## Claim theorems: SGF parser error cases and whitespace handling -/

/-- C6: the claim states that only whitespace outside property values is
stripped and a space inside a bracketed value is preserved.  The code joins
input.split() over the whole text before parsing, so the space inside the
value of C is deleted: the parsed value is ab, not a b (the repository's own
test_escape_characters expects values with spaces to survive a
serialize/parse round trip, which this strip makes impossible). -/
theorem C6_space_inside_value_stripped :
    parse ( "(;C[a b])".data) = .ok (.node [( "C".data, [ "ab".data])] []) ∧
    ( "ab".data : Str) ≠ "a b".data :=
  ⟨rfl, by decide⟩

/-- C7: parse fails with the four ValueError cases as claimed: any input not
starting with an opening parenthesis gives tree missing; a lowercase
character in a property key gives the uppercase error; a key not followed by
an opening bracket gives the delimiter error; a subtree with zero nodes gives
the no-nodes error. -/
theorem C7_parse_failure_cases :
    (∀ l : Str, l.head? ≠ some '(' → parse l = .error .treeMissing) ∧
    parse ( "(;b[1])".data) = .error .notUppercase ∧
    parse ( "(;AB)".data) = .error .noDelimiter ∧
    parse ( "(())".data) = .error .noNodes := by
  refine ⟨?_, rfl, rfl, rfl⟩
  intro l h
  unfold parse
  split
  · exact absurd rfl h
  · rfl

/-- C7 witness: the tree-missing case evaluated at a concrete input lacking
the leading parenthesis. -/
theorem C7_parse_failure_cases_witness :
    parse ( ";C[1])".data) = .error .treeMissing :=
  C7_parse_failure_cases.1 ( ";C[1])".data) (by decide)

/-! ## Decimal printing and parsing round trip (for the GTP row numbers) -/

/-- the fuel-driven digit list agrees with Mathlib's base-10 digits when the
fuel dominates the number. -/
theorem natDigitsAux_eq (f : Nat) : ∀ n : Nat, n ≤ f →
    natDigitsAux f n = Nat.digits 10 n := by
  induction f with
  | zero =>
    intro n hn
    interval_cases n
    simp [natDigitsAux]
  | succ f ih =>
    intro n hn
    by_cases h0 : n = 0
    · subst h0; simp [natDigitsAux]
    · rw [natDigitsAux, if_neg h0, Nat.digits_def' (by omega) (by omega),
        ih (n / 10) (by omega)]

/-- natDigits computes the base-10 digits. -/
theorem natDigits_eq (n : Nat) : natDigits n = Nat.digits 10 n :=
  natDigitsAux_eq n n le_rfl

/-- digitVal inverts Nat.digitChar on digits. -/
theorem digitVal_digitChar {d : Nat} (h : d < 10) :
    digitVal (Nat.digitChar d) = some d := by
  interval_cases d <;> rfl

/-- the ten digit characters are none of space, p, minus, plus. -/
theorem digitChar_not_special {d : Nat} (h : d < 10) :
    Nat.digitChar d ≠ ' ' ∧ Nat.digitChar d ≠ 'p' ∧
    Nat.digitChar d ≠ '-' ∧ Nat.digitChar d ≠ '+' := by
  interval_cases d <;> exact ⟨by decide, by decide, by decide, by decide⟩

/-- the digit parser folds Horner-style over mapped digit characters. -/
theorem natParseAux_digits (ds : List Nat) : ∀ acc : Nat, (∀ d ∈ ds, d < 10) →
    natParseAux (ds.map Nat.digitChar) acc =
      some (ds.foldl (fun a d => 10 * a + d) acc) := by
  induction ds with
  | nil => intro acc _; rfl
  | cons d ds ih =>
    intro acc h
    simp only [List.map_cons, natParseAux, digitVal_digitChar (h d (by simp)),
      ih _ (fun x hx => h x (by simp [hx])), List.foldl_cons]

/-- the Horner fold over a digit list evaluates to ofDigits of its reverse,
shifted by the accumulator. -/
theorem foldl_horner (ds : List Nat) : ∀ acc : Nat,
    ds.foldl (fun a d => 10 * a + d) acc =
      acc * 10 ^ ds.length + Nat.ofDigits 10 ds.reverse := by
  induction ds with
  | nil => intro acc; simp [Nat.ofDigits]
  | cons d ds ih =>
    intro acc
    rw [List.foldl_cons, ih, List.reverse_cons, Nat.ofDigits_append]
    simp [Nat.ofDigits, pow_succ]
    ring

/-- every character of natRepr is a digit character of a base-10 digit. -/
theorem natRepr_chars {n : Nat} {c : Char} (h : c ∈ natRepr n) :
    ∃ d, d < 10 ∧ c = Nat.digitChar d := by
  unfold natRepr at h
  by_cases h0 : n = 0
  · rw [if_pos h0] at h
    simp at h
    exact ⟨0, by omega, by simp [h]; rfl⟩
  · rw [if_neg h0] at h
    rw [List.mem_reverse, List.mem_map] at h
    obtain ⟨d, hd, hdc⟩ := h
    rw [natDigits_eq] at hd
    exact ⟨d, Nat.digits_lt_base (by omega) hd, hdc.symm⟩

/-- parsing inverts printing on positive naturals. -/
theorem natParse_natRepr {n : Nat} (h : 0 < n) :
    natParse (natRepr n) = some n := by
  have hne : Nat.digits 10 n ≠ [] := Nat.digits_ne_nil_iff_ne_zero.2 (by omega)
  have hrepr : natRepr n = ((Nat.digits 10 n).reverse).map Nat.digitChar := by
    unfold natRepr
    rw [if_neg (by omega), natDigits_eq, List.map_reverse]
  have hcons : ∃ c r, natRepr n = c :: r := by
    cases hd : (Nat.digits 10 n).reverse with
    | nil => exact absurd (by simpa using hd) hne
    | cons c r => exact ⟨_, _, by rw [hrepr, hd]; rfl⟩
  obtain ⟨c, r, hcr⟩ := hcons
  have : natParse (natRepr n) = natParseAux (natRepr n) 0 := by rw [hcr]; rfl
  rw [this, hrepr,
    natParseAux_digits _ 0 (fun d hd =>
      Nat.digits_lt_base (by omega) (List.mem_reverse.1 hd)),
    foldl_horner]
  simp [Nat.ofDigits_digits]

/-- intParse inverts intRepr on positive integers (the row numbers produced
by to_gtp are at least 1). -/
theorem intParse_intRepr {i : Int} (h : 0 < i) :
    intParse (intRepr i) = some i := by
  have hrepr : intRepr i = natRepr i.toNat := by
    unfold intRepr
    rw [if_neg (by omega)]
  have hpos : 0 < i.toNat := by omega
  have hhead : ∃ c r, natRepr i.toNat = c :: r ∧ c ≠ '-' ∧ c ≠ '+' := by
    cases hd : natRepr i.toNat with
    | nil =>
      exfalso
      have := natParse_natRepr hpos
      rw [hd] at this
      exact absurd this (by simp [natParse])
    | cons c r =>
      have hc : c ∈ natRepr i.toNat := by rw [hd]; simp
      obtain ⟨d, hd10, hdc⟩ := natRepr_chars hc
      obtain ⟨_, _, hm, hp⟩ := digitChar_not_special hd10
      exact ⟨c, r, rfl, hdc ▸ hm, hdc ▸ hp⟩
  obtain ⟨c, r, hcr, hcm, hcp⟩ := hhead
  rw [hrepr, hcr]
  have hparse : natParse (c :: r) = some i.toNat := by
    rw [← hcr, natParse_natRepr hpos]
  rw [intParse, if_neg hcm, if_neg hcp, hparse]
  simp
  omega

/-! ## pySplit on a single separator occurrence -/

/-- a separator-free string is one group. -/
theorem pySplit_no_sep {sep : Char} : ∀ b : Str, sep ∉ b → pySplit sep b = [b] := by
  intro b
  induction b with
  | nil => intro _; rfl
  | cons c r ih =>
    intro h
    have hc : c ≠ sep := fun hc => h (by simp [hc])
    simp only [pySplit, ih (fun hr => h (by simp [hr]))]
    rw [if_neg hc]

/-- splitting a string with exactly one separator, both sides free of it,
yields the two groups. -/
theorem pySplit_single {sep : Char} : ∀ a b : Str, sep ∉ a → sep ∉ b →
    pySplit sep (a ++ sep :: b) = [a, b] := by
  intro a
  induction a with
  | nil =>
    intro b _ hb
    rw [List.nil_append]
    simp [pySplit, pySplit_no_sep b hb]
  | cons c a ih =>
    intro b ha hb
    have hc : c ≠ sep := fun hc => ha (by simp [hc])
    rw [List.cons_append]
    simp only [pySplit, ih b (fun hr => ha (by simp [hr])) hb]
    rw [if_neg hc]

/-! ## GTP column alphabet facts -/

/-- for every column index below 25, the GTP alphabet entry exists, is its own
uppercase, indexes back to the same position, and is neither p nor a space. -/
theorem gtp_col_facts : ∀ i : Fin 25,
    (VALID_COLUMN_GTP.get? i.val).isSome = true ∧
    ((VALID_COLUMN_GTP.get? i.val).getD 'A').toUpper =
      (VALID_COLUMN_GTP.get? i.val).getD 'A' ∧
    pyIndex VALID_COLUMN_GTP ((VALID_COLUMN_GTP.get? i.val).getD 'A') =
      some i.val ∧
    (VALID_COLUMN_GTP.get? i.val).getD 'A' ≠ 'p' ∧
    (VALID_COLUMN_GTP.get? i.val).getD 'A' ≠ ' ' := by decide

/-! ## C5 amended: the GTP round trip -/

/-- C5 amended: for every move with a lowercase color token whose position is
a pass or a validated in-bounds position (x, y) on the game's board with
x below the width, the width at most the 25 GTP columns, y below the height,
and additionally y at most width - 1 (the restriction the bounds slip of
from_gtp forces), to_gtp succeeds and from_gtp maps its output back to a move
with the same color and the same position. -/
theorem C5_gtp_roundtrip_amended (g : Game) (c : Str) (p : Option (Int × Int))
    (t : Option Nat)
    (hc : c = "b".data ∨ c = "w".data)
    (hp : p = none ∨ ∃ x y : Int, p = some (x, y) ∧
      0 ≤ x ∧ x < g.size.1 ∧ g.size.1 ≤ 25 ∧ 0 ≤ y ∧ y < g.size.2 ∧
      y ≤ g.size.1 - 1 ∧ is_valid_pos g.board (x, y) = true) :
    ∃ s, to_gtp g { color := c, pos := p, turn := t } = .ok s ∧
      ∃ m, from_gtp g s = .ok m ∧ m.color = c ∧ m.pos = p := by
  rcases hp with hpass | ⟨x, y, hxy, hx0, hxw, hw25, hy0, hyh, hyw, hvalid⟩
  · subst hpass
    rcases hc with hb | hw
    · subst hb
      exact ⟨_, rfl, _, rfl, rfl, rfl⟩
    · subst hw
      exact ⟨_, rfl, _, rfl, rfl, rfl⟩
  · subst hxy
    -- the column character and its facts
    have hxn : x.toNat < 25 := by omega
    have hcol := gtp_col_facts ⟨x.toNat, hxn⟩
    cases hget : VALID_COLUMN_GTP.get? x.toNat with
    | none => rw [hget] at hcol; exact absurd hcol.1 (by simp)
    | some col =>
    rw [hget] at hcol
    simp only [Option.getD_some] at hcol
    obtain ⟨-, hupper, hindex, hnp, hnsp⟩ := hcol
    -- the row number and its digit string
    have hrow : (0 : Int) < g.size.2 - y := by omega
    have hdigits : ∀ ch ∈ intRepr (g.size.2 - y), ∃ d, d < 10 ∧ ch = Nat.digitChar d := by
      intro ch hch
      rw [intRepr, if_neg (by omega)] at hch
      exact natRepr_chars hch
    have hnospace : ' ' ∉ (col :: intRepr (g.size.2 - y)) := by
      intro hmem
      rcases List.mem_cons.1 hmem with h1 | h1
      · exact hnsp h1.symm
      · obtain ⟨d, hd, hdc⟩ := hdigits _ h1
        exact (digitChar_not_special hd).1 hdc.symm
    -- evaluate to_gtp
    have hto : to_gtp g { color := c, pos := some (x, y), turn := t } =
        .ok (c ++ ' ' :: col :: intRepr (g.size.2 - y)) := by
      simp only [to_gtp]
      rw [if_pos hx0, hget]
    refine ⟨_, hto, ?_⟩
    -- evaluate from_gtp on the produced string
    have hcs : ∃ c0, c = [c0] ∧ c0 ≠ ' ' ∧ toLowerStr c = "b".data ∨
        c = [c0] ∧ c0 ≠ ' ' ∧ toLowerStr c = "w".data := by
      rcases hc with hb | hw
      · exact ⟨'b', Or.inl ⟨by rw [hb], by decide, by rw [hb]; rfl⟩⟩
      · exact ⟨'w', Or.inr ⟨by rw [hw], by decide, by rw [hw]; rfl⟩⟩
    have hsplit : pySplit ' ' (c ++ ' ' :: col :: intRepr (g.size.2 - y)) =
        [c, col :: intRepr (g.size.2 - y)] := by
      apply pySplit_single
      · rcases hcs with ⟨c0, ⟨hc0, hc0s, _⟩ | ⟨hc0, hc0s, _⟩⟩ <;>
          · rw [hc0]
            intro hmem
            rw [List.mem_singleton] at hmem
            exact hc0s hmem.symm
      · exact hnospace
    have hlower : toLowerStr c = "b".data ∨ toLowerStr c = "w".data := by
      rcases hcs with ⟨c0, ⟨_, _, hl⟩ | ⟨_, _, hl⟩⟩
      · exact Or.inl hl
      · exact Or.inr hl
    have hnotpass : (col :: intRepr (g.size.2 - y)) ≠ "pass".data := by
      intro heq
      have : col = 'p' := by
        have := congrArg List.head? heq
        simpa using this
      exact hnp this
    have hparse : intParse (intRepr (g.size.2 - y)) = some (g.size.2 - y) :=
      intParse_intRepr hrow
    have hyy : g.size.2 - (g.size.2 - y) = y := by omega
    have hcond : (0 : Int) ≤ g.size.2 - (g.size.2 - y) ∧
        g.size.2 - (g.size.2 - y) ≤ g.size.1 - 1 := by
      constructor <;> omega
    have hxcast : ((x.toNat : Int)) = x := Int.toNat_of_nonneg hx0
    -- assemble
    simp only [from_gtp, hsplit]
    rw [if_pos hlower, if_neg hnotpass, hupper, hindex, hparse]
    dsimp only
    rw [if_pos (⟨by omega, by omega⟩ :
      (0 : Int) ≤ g.size.2 - (g.size.2 - y) ∧
        g.size.2 - (g.size.2 - y) ≤ g.size.1 - 1)]
    rw [hxcast, hyy]
    simp only [mkMove]
    dsimp only
    have hcolor : toLowerStr c = "B".data ∨ toLowerStr c = "W".data ∨
        toLowerStr c = "b".data ∨ toLowerStr c = "w".data := by
      rcases hlower with h | h
      · exact Or.inr (Or.inr (Or.inl h))
      · exact Or.inr (Or.inr (Or.inr h))
    rw [if_pos hcolor, if_pos hvalid]
    refine ⟨_, rfl, ?_, rfl⟩
    rcases hc with rfl | rfl <;> rfl

/-- C5 amended witness: the round trip evaluated on a fresh 19x19 game at the
lowercase black move (2, 3) and checked to return color b and position
(2, 3). -/
theorem C5_gtp_roundtrip_amended_witness :
    ∃ s, to_gtp (mkTestGame (19, 19) 0 [])
        { color := "b".data, pos := some (2, 3), turn := none } = .ok s ∧
      ∃ m, from_gtp (mkTestGame (19, 19) 0 []) s = .ok m ∧
        m.color = "b".data ∧ m.pos = some (2, 3) :=
  C5_gtp_roundtrip_amended (mkTestGame (19, 19) 0 []) ( "b".data) (some (2, 3))
    none (Or.inl rfl)
    (Or.inr ⟨2, 3, rfl, by decide, by decide, by decide, by decide, by decide,
      by decide, by decide⟩)

/-! ## C3: the SGF round-trip law -/

/-- C3 counterexample: the tree parsed from (;(;(;))(;)) has two children,
the first of which has a child; serialize emits the sole grandchild without
parentheses, and re-parsing the wrapped serialization reassociates the second
branch as a child of the first, so the round trip is not structurally equal
to the original (SgfTree.eq is false). -/
theorem C3_roundtrip_counterexample :
    parse ( "(;(;(;))(;))".data) =
      .ok (.node [] [.node [] [.node [] []], .node [] []]) ∧
    '(' :: serialize (.node [] [.node [] [.node [] []], .node [] []]) ++ [')'] =
      "(;(;;)(;))".data ∧
    parse ('(' :: serialize (.node [] [.node [] [.node [] []], .node [] []]) ++ [')']) =
      .ok (.node [] [.node [] [.node [] [], .node [] []]]) ∧
    eqTree (.node [] [.node [] [.node [] []], .node [] []])
      (.node [] [.node [] [.node [] [], .node [] []]]) = false :=
  ⟨rfl, rfl, rfl, rfl⟩

/-- absence of whitespace characters in a string. -/
def wsFree (l : Str) : Bool := l.all (fun c => !(isWs c))

/-- a string of uppercase letters only. -/
def upperStr (k : Str) : Bool := k.all Char.isUpper

/-- well-formedness of the property entries a parse can produce: uppercase
keys, at least one value per key, no whitespace inside values. -/
def WFpropEntries (ps : List (Str × List Str)) : Bool :=
  ps.all (fun p => upperStr p.1 && !(p.2.isEmpty) && p.2.all wsFree)

/-- pairwise distinctness of a list of strings (the keys of a dict). -/
def nodupStr : List Str → Bool
  | [] => true
  | k :: r => r.all (fun q => !(decide (q = k))) && nodupStr r

/-- every key after the first is nonempty (only the first property of a node
can have the empty key, when the node text starts with a bracket). -/
def tailNE : List Str → Bool
  | [] => true
  | _ :: tl => tl.all (fun k => !(k.isEmpty))

/-- well-formedness of a parsed property map. -/
def WFprops (ps : List (Str × List Str)) : Bool :=
  WFpropEntries ps && nodupStr (ps.map Prod.fst) && tailNE (ps.map Prod.fst)

mutual

/-- well-formedness of a parsed tree: every node's property map is
well-formed. -/
def WFtree : SgfTree → Bool
  | .node ps cs => WFprops ps && WFtreeList cs

/-- well-formedness of every tree in a list. -/
def WFtreeList : List SgfTree → Bool
  | [] => true
  | t :: ts => WFtree t && WFtreeList ts

end

/-- the amended shape restriction: every node with two or more children has
only childless children, so branching occurs only as a terminal fan of leaf
variations at the end of the main line. -/
def goodShape : SgfTree → Bool
  | .node _ [] => true
  | .node _ (c :: cs) =>
    if cs.isEmpty then goodShape c
    else (c :: cs).all (fun x => x.children.isEmpty)


/-! ### Whitespace-freeness facts about parser outputs -/

/-- membership form of wsFree. -/
theorem wsFree_iff {l : Str} : wsFree l = true ↔ ∀ c ∈ l, isWs c = false := by
  simp [wsFree, List.all_eq_true]

/-- wsFree distributes over cons. -/
theorem wsFree_cons {c : Char} {l : Str} :
    wsFree (c :: l) = (!(isWs c) && wsFree l) := by
  simp [wsFree]

/-- wsFree distributes over append. -/
theorem wsFree_append {a b : Str} :
    wsFree (a ++ b) = (wsFree a && wsFree b) := by
  simp [wsFree]

/-- an uppercase letter is not whitespace. -/
theorem upper_not_ws {c : Char} (h : c.isUpper = true) : isWs c = false := by
  by_contra hne
  rw [Bool.not_eq_false] at hne
  have h1 : c = ' ' ∨ c = '\t' ∨ c = '\n' ∨ c = '\r' ∨ c = '\x0b' ∨ c = '\x0c' := by
    simp only [isWs, Bool.or_eq_true, beq_iff_eq] at hne
    tauto
  rcases h1 with rfl | rfl | rfl | rfl | rfl | rfl <;> exact absurd h (by decide)

/-- an uppercase letter is none of the parser's structural characters. -/
theorem upper_ne_structural {c : Char} (h : c.isUpper = true) :
    c ≠ '(' ∧ c ≠ ')' ∧ c ≠ ';' ∧ c ≠ '[' := by
  refine ⟨?_, ?_, ?_, ?_⟩ <;> intro heq <;> subst heq <;> exact absurd h (by decide)

/-- a value scanned from whitespace-free input is whitespace-free, and so is
the remaining input (both the main scanner and the escape scanner). -/
theorem scanValueF_ws : ∀ f : Nat,
    (∀ l v r, wsFree l = true → scanValueF f l = .ok (v, r) →
      wsFree v = true ∧ wsFree r = true) ∧
    (∀ l v r, wsFree l = true → scanValueEscF f l = .ok (v, r) →
      wsFree v = true ∧ wsFree r = true) := by
  intro f
  induction f with
  | zero =>
    constructor <;> (intro l v r _ hs; exact Except.noConfusion hs)
  | succ f ih =>
    constructor
    · intro l v r hw hs
      match l with
      | [] => exact Except.noConfusion hs
      | c :: rest =>
        rw [wsFree_cons, Bool.and_eq_true] at hw
        rw [scanValueF] at hs
        by_cases h1 : c = ']'
        · rw [if_pos h1] at hs
          obtain ⟨rfl, rfl⟩ := by simpa using hs
          exact ⟨rfl, hw.2⟩
        · rw [if_neg h1] at hs
          by_cases h2 : c = '\t'
          · subst h2; exact absurd hw.1 (by decide)
          · rw [if_neg h2] at hs
            by_cases h3 : c = '\\'
            · rw [if_pos h3] at hs
              exact ih.2 rest v r hw.2 hs
            · rw [if_neg h3] at hs
              cases hsv : scanValueF f rest with
              | error e => rw [hsv] at hs; exact Except.noConfusion hs
              | ok p =>
                obtain ⟨v0, r0⟩ := p
                rw [hsv] at hs
                obtain ⟨rfl, rfl⟩ := by simpa [consRes] using hs
                have hi := ih.1 rest v0 r0 hw.2 hsv
                rw [wsFree_cons, Bool.and_eq_true]
                exact ⟨⟨hw.1, hi.1⟩, hi.2⟩
    · intro l v r hw hs
      match l with
      | [] => exact Except.noConfusion hs
      | d :: rest2 =>
        rw [wsFree_cons, Bool.and_eq_true] at hw
        rw [scanValueEscF] at hs
        by_cases h1 : d = ']' ∨ d = '\\'
        · rw [if_pos h1] at hs
          cases hsv : scanValueF f rest2 with
          | error e => rw [hsv] at hs; exact Except.noConfusion hs
          | ok p =>
            obtain ⟨v0, r0⟩ := p
            rw [hsv] at hs
            obtain ⟨rfl, rfl⟩ := by simpa [consRes] using hs
            have hi := ih.1 rest2 v0 r0 hw.2 hsv
            rw [wsFree_cons, Bool.and_eq_true]
            exact ⟨⟨hw.1, hi.1⟩, hi.2⟩
        · rw [if_neg h1] at hs
          by_cases h2 : d = '\n'
          · subst h2; exact absurd hw.1 (by decide)
          · rw [if_neg h2] at hs
            cases hsv : scanValueF f rest2 with
            | error e => rw [hsv] at hs; exact Except.noConfusion hs
            | ok p =>
              obtain ⟨v0, r0⟩ := p
              rw [hsv] at hs
              obtain ⟨rfl, rfl⟩ := by simpa [consRes] using hs
              have hi := ih.1 rest2 v0 r0 hw.2 hsv
              rw [wsFree_cons, Bool.and_eq_true]
              by_cases h3 : d = '\t'
              · exact absurd (h3 ▸ hw.1) (by decide)
              · rw [if_neg h3]
                exact ⟨⟨hw.1, hi.1⟩, hi.2⟩

/-- scanUpper splits its input into an all-uppercase prefix and a remainder
beginning with a non-uppercase character. -/
theorem scanUpper_split : ∀ l k r, scanUpper l = .ok (k, r) →
    l = k ++ r ∧ upperStr k = true ∧ ∃ d r2, r = d :: r2 ∧ d.isUpper = false := by
  intro l
  induction l with
  | nil => intro k r hs; exact Except.noConfusion hs
  | cons c rest ih =>
    intro k r hs
    rw [scanUpper] at hs
    by_cases hc : c.isUpper
    · rw [if_pos hc] at hs
      cases hsr : scanUpper rest with
      | error e => rw [hsr] at hs; exact Except.noConfusion hs
      | ok p =>
        obtain ⟨k0, r0⟩ := p
        rw [hsr] at hs
        obtain ⟨rfl, rfl⟩ := by simpa using hs
        obtain ⟨hsplit, hupper, hd⟩ := ih k0 r0 hsr
        refine ⟨by rw [List.cons_append, ← hsplit], ?_, hd⟩
        simp only [upperStr, List.all_cons, hc, Bool.true_and]
        exact hupper
    · rw [if_neg hc] at hs
      obtain ⟨rfl, rfl⟩ := by simpa using hs
      exact ⟨rfl, rfl, c, rest, rfl, by simpa using hc⟩

/-- skipParens preserves whitespace-freeness. -/
theorem skipParens_ws : ∀ l l1 : Str, wsFree l = true → skipParens l = .ok l1 →
    wsFree l1 = true := by
  intro l
  induction l with
  | nil => intro l1 _ hs; exact Except.noConfusion hs
  | cons c rest ih =>
    intro l1 hw hs
    rw [wsFree_cons, Bool.and_eq_true] at hw
    rw [skipParens] at hs
    by_cases hc : c = '('
    · rw [if_pos hc] at hs
      exact ih l1 hw.2 hs
    · rw [if_neg hc] at hs
      obtain rfl := by simpa using hs
      rw [wsFree_cons, Bool.and_eq_true]
      exact ⟨hw.1, hw.2⟩

/-- the value list parsed from whitespace-free input: whitespace-free values,
whitespace-free remainder, and the remainder starts with a non-bracket
character. -/
theorem parseValuesF_wf : ∀ f l vs r, wsFree l = true →
    parseValuesF f l = .ok (vs, r) →
    (∀ v ∈ vs, wsFree v = true) ∧ wsFree r = true ∧
      ∃ d r2, r = d :: r2 ∧ d ≠ '[' := by
  intro f
  induction f with
  | zero => intro l vs r _ hs; exact Except.noConfusion hs
  | succ f ih =>
    intro l vs r hw hs
    match l with
    | [] => exact Except.noConfusion hs
    | c :: rest =>
      rw [wsFree_cons, Bool.and_eq_true] at hw
      rw [parseValuesF] at hs
      by_cases hc : c = '['
      · rw [if_pos hc] at hs
        cases hsv : scanValueF f rest with
        | error e => rw [hsv] at hs; exact Except.noConfusion hs
        | ok p =>
          obtain ⟨v0, r0⟩ := p
          rw [hsv] at hs
          dsimp only at hs
          have hws := (scanValueF_ws f).1 rest v0 r0 hw.2 hsv
          cases hpv : parseValuesF f r0 with
          | error e => rw [hpv] at hs; exact Except.noConfusion hs
          | ok q =>
            obtain ⟨vs0, r2⟩ := q
            rw [hpv] at hs
            dsimp only at hs
            obtain ⟨rfl, rfl⟩ := by simpa using hs
            obtain ⟨hvs, hr, hd⟩ := ih r0 vs0 r2 hws.2 hpv
            refine ⟨?_, hr, hd⟩
            intro v hv
            rcases List.mem_cons.1 hv with rfl | hv
            · exact hws.1
            · exact hvs v hv
      · rw [if_neg hc] at hs
        obtain ⟨rfl, rfl⟩ := by simpa using hs
        refine ⟨by simp, ?_, c, rest, rfl, hc⟩
        rw [wsFree_cons, Bool.and_eq_true]
        exact ⟨hw.1, hw.2⟩

/-- the property parsed from whitespace-free input: an uppercase key, a
nonempty whitespace-free value list, a whitespace-free remainder starting
with a non-bracket character, and an empty key only when the input itself
started with a bracket. -/
theorem getPropertyF_wf : ∀ f l k vs r, wsFree l = true →
    getPropertyF f l = .ok ((k, vs), r) →
    upperStr k = true ∧ vs ≠ [] ∧ (∀ v ∈ vs, wsFree v = true) ∧
      wsFree r = true ∧ (∃ d r2, r = d :: r2 ∧ d ≠ '[') ∧
      (k = [] → ∃ l2, l = '[' :: l2) := by
  intro f l k vs r hw hs
  rw [getPropertyF] at hs
  cases hsu : scanUpper l with
  | error e => rw [hsu] at hs; exact Except.noConfusion hs
  | ok p =>
    obtain ⟨key, r1⟩ := p
    rw [hsu] at hs
    dsimp only at hs
    obtain ⟨hsplitU, hupperU, d, r2, rfl, hdU⟩ := scanUpper_split l key r1 hsu
    dsimp only at hs
    have hwr1 : wsFree (d :: r2) = true := by
      rw [hsplitU, wsFree_append, Bool.and_eq_true] at hw
      exact hw.2
    rw [wsFree_cons, Bool.and_eq_true] at hwr1
    by_cases hdl : d.isLower
    · rw [if_pos hdl] at hs; exact Except.noConfusion hs
    · rw [if_neg hdl] at hs
      by_cases hdb : d = '['
      · rw [if_neg (by simpa using hdb)] at hs
        cases hsv : scanValueF f r2 with
        | error e => rw [hsv] at hs; exact Except.noConfusion hs
        | ok q =>
          obtain ⟨v0, r3⟩ := q
          rw [hsv] at hs
          dsimp only at hs
          have hws := (scanValueF_ws f).1 r2 v0 r3 hwr1.2 hsv
          cases hpv : parseValuesF f r3 with
          | error e => rw [hpv] at hs; exact Except.noConfusion hs
          | ok q2 =>
            obtain ⟨vs0, r4⟩ := q2
            rw [hpv] at hs
            dsimp only at hs
            obtain ⟨⟨rfl, rfl⟩, rfl⟩ := by simpa using hs
            obtain ⟨hvs, hr, hd4⟩ := parseValuesF_wf f r3 vs0 r4 hws.2 hpv
            refine ⟨hupperU, by simp, ?_, hr, hd4, ?_⟩
            · intro v hv
              rcases List.mem_cons.1 hv with rfl | hv
              · exact hws.1
              · exact hvs v hv
            · intro hk
              refine ⟨r2, ?_⟩
              rw [hsplitU, hk, hdb]
              rfl
      · rw [if_pos (by simpa using hdb)] at hs
        exact Except.noConfusion hs


/-- dropping characters preserves whitespace-freeness. -/
theorem wsFree_drop {l : Str} (n : Nat) (h : wsFree l = true) :
    wsFree (l.drop n) = true := by
  rw [wsFree_iff] at h ⊢
  intro c hc
  exact h c (List.drop_subset n l hc)

/-- the whitespace filter produces a whitespace-free string. -/
theorem wsFree_filter (l : Str) :
    wsFree (l.filter (fun c => !(isWs c))) = true := by
  rw [wsFree_iff]
  intro c hc
  have := (List.mem_filter.1 hc).2
  simpa using this

/-- appending a fresh key preserves key distinctness. -/
theorem nodupStr_append {ks : List Str} {k : Str} (h : nodupStr ks = true)
    (hm : ∀ q ∈ ks, q ≠ k) : nodupStr (ks ++ [k]) = true := by
  induction ks with
  | nil => simp [nodupStr]
  | cons k0 ks ih =>
    rw [nodupStr, Bool.and_eq_true] at h
    rw [List.cons_append, nodupStr, Bool.and_eq_true]
    refine ⟨?_, ih h.2 (fun q hq => hm q (by simp [hq]))⟩
    rw [List.all_append, Bool.and_eq_true]
    refine ⟨h.1, ?_⟩
    simp only [List.all_cons, List.all_nil, Bool.and_true]
    have hne : k ≠ k0 := fun heq => hm k0 (by simp) heq.symm
    simpa using hne

/-- appending a key that is nonempty whenever the list was nonempty preserves
the nonemptiness of all keys after the first. -/
theorem tailNE_append {ks : List Str} {k : Str} (h : tailNE ks = true)
    (hne : ks ≠ [] → k ≠ []) : tailNE (ks ++ [k]) = true := by
  cases ks with
  | nil => simp [tailNE]
  | cons k0 tl =>
    rw [tailNE] at h
    rw [List.cons_append, tailNE, List.all_append, Bool.and_eq_true]
    refine ⟨h, ?_⟩
    simp only [List.all_cons, List.all_nil, Bool.and_true]
    have hk : k ≠ [] := hne (by simp)
    simpa [List.isEmpty_iff] using hk

/-- a key-preserving replacement leaves the key list unchanged. -/
theorem map_keys_update (ps : List (Str × List Str)) (kv : Str × List Str) :
    (ps.map (fun p => if p.1 = kv.1 then kv else p)).map Prod.fst =
      ps.map Prod.fst := by
  induction ps with
  | nil => rfl
  | cons p ps ih =>
    simp only [List.map_cons, ih]
    by_cases hp : p.1 = kv.1
    · rw [if_pos hp, hp]
    · rw [if_neg hp]

/-- dict.update preserves well-formedness of the property map when the new
entry is well-formed and an empty key only arrives into an empty map. -/
theorem dictUpdate_wf (acc : List (Str × List Str)) (kv : Str × List Str)
    (hacc : WFprops acc = true)
    (hup : upperStr kv.1 = true) (hvne : kv.2 ≠ [])
    (hvws : ∀ v ∈ kv.2, wsFree v = true)
    (hk : kv.1 = [] → acc = []) :
    WFprops (dictUpdate acc kv) = true := by
  have hkvent : (upperStr kv.1 && !(kv.2.isEmpty) && kv.2.all wsFree) = true := by
    rw [Bool.and_eq_true, Bool.and_eq_true]
    refine ⟨⟨hup, by simpa [List.isEmpty_iff] using hvne⟩, ?_⟩
    rw [List.all_eq_true]
    exact hvws
  rw [WFprops, Bool.and_eq_true, Bool.and_eq_true] at hacc
  obtain ⟨⟨hent, hnd⟩, htl⟩ := hacc
  rw [dictUpdate]
  by_cases hany : acc.any (fun p => decide (p.1 = kv.1)) = true
  · rw [if_pos hany, WFprops, Bool.and_eq_true, Bool.and_eq_true]
    rw [map_keys_update acc kv]
    refine ⟨⟨?_, hnd⟩, htl⟩
    rw [WFpropEntries, List.all_eq_true] at hent ⊢
    intro p hp
    rw [List.mem_map] at hp
    obtain ⟨q, hq, rfl⟩ := hp
    by_cases hqk : q.1 = kv.1
    · rw [if_pos hqk]; exact hkvent
    · rw [if_neg hqk]
      exact hent q hq
  · rw [if_neg hany, WFprops, Bool.and_eq_true, Bool.and_eq_true, List.map_append]
    have hfresh : ∀ q ∈ acc.map Prod.fst, q ≠ kv.1 := by
      intro q hq
      rw [List.mem_map] at hq
      obtain ⟨p, hp, rfl⟩ := hq
      intro heq
      exact hany (by rw [List.any_eq_true]; exact ⟨p, hp, by simpa using heq⟩)
    refine ⟨⟨?_, nodupStr_append hnd hfresh⟩, ?_⟩
    · rw [WFpropEntries, List.all_append, Bool.and_eq_true]
      constructor
      · exact hent
      · simpa [List.all_cons] using hkvent
    · refine tailNE_append htl ?_
      intro hne heq
      have hae : acc = [] := hk heq
      rw [hae] at hne
      exact hne rfl

/-- the property map parsed from whitespace-free input with a well-formed
accumulator is well-formed, and the remainder is whitespace-free and starts
with a structural character. -/
theorem parsePropsF_wf : ∀ f l acc ps r, wsFree l = true → WFprops acc = true →
    (∀ l2, l = '[' :: l2 → acc = []) →
    parsePropsF f l acc = .ok (ps, r) →
    WFprops ps = true ∧ wsFree r = true ∧
      ∃ d r2, r = d :: r2 ∧ (d = '(' ∨ d = ')' ∨ d = ';') := by
  intro f
  induction f with
  | zero => intro l acc ps r _ _ _ hs; exact Except.noConfusion hs
  | succ f ih =>
    intro l acc ps r hw hacc hbr hs
    match l with
    | [] => exact Except.noConfusion hs
    | c :: rest =>
      rw [parsePropsF] at hs
      by_cases hstop : c = '(' ∨ c = ')' ∨ c = ';'
      · rw [if_pos hstop] at hs
        obtain ⟨rfl, rfl⟩ := by simpa using hs
        exact ⟨hacc, hw, c, rest, rfl, hstop⟩
      · rw [if_neg hstop] at hs
        cases hgp : getPropertyF f (c :: rest) with
        | error e => rw [hgp] at hs; exact Except.noConfusion hs
        | ok q =>
          obtain ⟨⟨k, vs⟩, r1⟩ := q
          rw [hgp] at hs
          dsimp only at hs
          obtain ⟨hupk, hvne, hvws, hwr1, ⟨d, r2, hr1, hdnb⟩, hkem⟩ :=
            getPropertyF_wf f (c :: rest) k vs r1 hw hgp
          refine ih r1 (dictUpdate acc (k, vs)) ps r hwr1 ?_ ?_ hs
          · refine dictUpdate_wf acc (k, vs) hacc hupk hvne hvws ?_
            intro hke
            obtain ⟨l2, hl2⟩ := hkem hke
            exact hbr l2 hl2
          · intro l2 heq
            rw [hr1] at heq
            injection heq with h1 _
            exact absurd h1 hdnb

/-- the node and children parsed from whitespace-free input are well-formed,
and the remainders whitespace-free. -/
theorem parseWF : ∀ f : Nat,
    (∀ l t r, wsFree l = true → parseNodeF f l = .ok (t, r) →
      WFtree t = true ∧ wsFree r = true) ∧
    (∀ l ts r, wsFree l = true → parseChildrenF f l = .ok (ts, r) →
      WFtreeList ts = true ∧ wsFree r = true) := by
  intro f
  induction f with
  | zero =>
    constructor <;> (intro l x r _ hs; exact Except.noConfusion hs)
  | succ f ih =>
    constructor
    · intro l t r hw hs
      rw [parseNodeF] at hs
      cases hsp : skipParens l with
      | error e => rw [hsp] at hs; exact Except.noConfusion hs
      | ok l1 =>
        rw [hsp] at hs
        have hws1 := skipParens_ws l l1 hw hsp
        match l1, hws1 with
        | [], _ => exact Except.noConfusion hs
        | c :: rest, hws1 =>
          rw [wsFree_cons, Bool.and_eq_true] at hws1
          dsimp only at hs
          by_cases hc : c = ')'
          · rw [if_pos hc] at hs; exact Except.noConfusion hs
          · rw [if_neg hc] at hs
            cases hpp : parsePropsF f rest [] with
            | error e => rw [hpp] at hs; exact Except.noConfusion hs
            | ok q =>
              obtain ⟨ps, l2⟩ := q
              rw [hpp] at hs
              dsimp only at hs
              obtain ⟨hps, hwl2, -⟩ :=
                parsePropsF_wf f rest [] ps l2 hws1.2 rfl (fun _ _ => rfl) hpp
              cases hpc : parseChildrenF f l2 with
              | error e => rw [hpc] at hs; exact Except.noConfusion hs
              | ok q2 =>
                obtain ⟨cs, l3⟩ := q2
                rw [hpc] at hs
                dsimp only at hs
                obtain ⟨rfl, rfl⟩ := by simpa using hs
                obtain ⟨hcs, hwl3⟩ := ih.2 l2 cs l3 hwl2 hpc
                constructor
                · rw [WFtree, Bool.and_eq_true]
                  exact ⟨hps, hcs⟩
                · rw [← List.drop_one]
                  exact wsFree_drop 1 hwl3
    · intro l ts r hw hs
      match l with
      | [] =>
        rw [parseChildrenF] at hs
        obtain ⟨rfl, rfl⟩ := by simpa using hs
        exact ⟨rfl, rfl⟩
      | c :: rest =>
        rw [parseChildrenF] at hs
        by_cases hc : c = ')'
        · rw [if_pos hc] at hs
          obtain ⟨rfl, rfl⟩ := by simpa using hs
          exact ⟨rfl, hw⟩
        · rw [if_neg hc] at hs
          cases hpn : parseNodeF f (c :: rest) with
          | error e => rw [hpn] at hs; exact Except.noConfusion hs
          | ok q =>
            obtain ⟨t0, r0⟩ := q
            rw [hpn] at hs
            dsimp only at hs
            obtain ⟨ht0, hwr0⟩ := ih.1 (c :: rest) t0 r0 hw hpn
            cases hpc : parseChildrenF f r0 with
            | error e => rw [hpc] at hs; exact Except.noConfusion hs
            | ok q2 =>
              obtain ⟨ts0, r2⟩ := q2
              rw [hpc] at hs
              dsimp only at hs
              obtain ⟨rfl, rfl⟩ := by simpa using hs
              obtain ⟨hts0, hwr2⟩ := ih.2 r0 ts0 r2 hwr0 hpc
              constructor
              · rw [WFtreeList, Bool.and_eq_true]
                exact ⟨ht0, hts0⟩
              · exact hwr2

/-- every tree parse produces is well-formed. -/
theorem parse_wf {s : Str} {t : SgfTree} (h : parse s = .ok t) :
    WFtree t = true := by
  unfold parse at h
  split at h
  · rename_i rest
    cases hpn : parseNodeF (4 * (('(' :: rest).filter (fun c => !(isWs c))).length + 8)
        ((('(' :: rest).filter (fun c => !(isWs c))).drop 1) with
    | error e => rw [hpn] at h; exact Except.noConfusion h
    | ok q =>
      obtain ⟨t0, r0⟩ := q
      rw [hpn] at h
      obtain rfl := by simpa using h
      exact ((parseWF _).1 _ t0 r0
        (wsFree_drop 1 (wsFree_filter _)) hpn).1
  · exact Except.noConfusion h


/-! ### Serialization facts: heads, lengths, whitespace-freeness -/

/-- every serialized node starts with a semicolon. -/
theorem serialize_head (t : SgfTree) : ∃ tl, serialize t = ';' :: tl := by
  obtain ⟨ps, cs⟩ := t
  cases cs with
  | nil => exact ⟨propsStr ps, rfl⟩
  | cons c cs =>
    rw [serialize]
    by_cases hcs : cs.isEmpty
    · rw [if_pos hcs]
      exact ⟨propsStr ps ++ serialize c, rfl⟩
    · rw [if_neg hcs]
      exact ⟨propsStr ps ++ serializeList (c :: cs), rfl⟩

/-- each bracketed value block contributes at least one character per
value. -/
theorem valuesStr_length_ge (vs : List Str) :
    vs.length ≤ (valuesStr vs).length := by
  induction vs with
  | nil => simp [valuesStr]
  | cons v vs ih =>
    simp only [valuesStr, List.flatMap_cons, List.length_append, List.length_cons] at ih ⊢
    omega

/-- with nonempty value lists, each property contributes at least one
character. -/
theorem props_count_le {ps : List (Str × List Str)}
    (h : WFpropEntries ps = true) : ps.length ≤ (propsStr ps).length := by
  induction ps with
  | nil => simp [propsStr]
  | cons p ps ih =>
    rw [WFpropEntries, List.all_cons, Bool.and_eq_true] at h
    have hcount : 1 ≤ (valuesStr p.2).length := by
      have h1 := h.1
      rw [Bool.and_eq_true, Bool.and_eq_true] at h1
      have h2 := h1.1.2
      have h3 : 1 ≤ p.2.length := by
        cases hp : p.2 with
        | nil => rw [hp] at h2; simp at h2
        | cons a b => simp
      have h4 := valuesStr_length_ge p.2
      omega
    have ihh := ih h.2
    simp only [propsStr, List.flatMap_cons, List.length_append, List.length_cons] at ihh ⊢
    simp only [propStr, List.length_append]
    omega

/-- characters of an escaped value: a backslash or a character of the
value. -/
theorem escapeVal_ws {v : Str} (h : wsFree v = true) :
    wsFree (escapeVal v) = true := by
  rw [wsFree_iff] at h ⊢
  intro c hc
  simp only [escapeVal, List.mem_flatMap] at hc
  obtain ⟨d, hd, hcd⟩ := hc
  by_cases hesc : d = '\\' ∨ d = ']'
  · rw [if_pos hesc] at hcd
    rcases (by simpa using hcd : c = '\\' ∨ c = d) with rfl | rfl
    · decide
    · exact h _ hd
  · rw [if_neg hesc] at hcd
    obtain rfl := by simpa using hcd
    exact h c hd

/-- a well-formed property map serializes without whitespace. -/
theorem propsStr_ws {ps : List (Str × List Str)}
    (h : WFpropEntries ps = true) : wsFree (propsStr ps) = true := by
  induction ps with
  | nil => rfl
  | cons p ps ih =>
    rw [WFpropEntries, List.all_cons, Bool.and_eq_true] at h
    obtain ⟨hp, hps⟩ := h
    rw [Bool.and_eq_true, Bool.and_eq_true] at hp
    rw [propsStr, List.flatMap_cons, wsFree_append, Bool.and_eq_true]
    refine ⟨?_, ih hps⟩
    rw [propStr, wsFree_append, Bool.and_eq_true]
    constructor
    · rw [wsFree_iff]
      intro c hc
      rw [upperStr, List.all_eq_true] at hp
      exact upper_not_ws (hp.1.1 c hc)
    · rw [wsFree_iff]
      intro c hc
      simp only [valuesStr, List.mem_flatMap, List.mem_cons, List.mem_append,
        List.mem_singleton] at hc
      obtain ⟨v, hv, hcv⟩ := hc
      rcases hcv with (rfl | hcv) | rfl | hcv
      · decide
      · have hvws : wsFree v = true := by
          have h3 := hp.2
          rw [List.all_eq_true] at h3
          exact h3 v hv
        exact (wsFree_iff.1 (escapeVal_ws hvws)) c hcv
      · decide
      · cases hcv

mutual

/-- a well-formed tree serializes without whitespace. -/
theorem serialize_ws : ∀ t : SgfTree, WFtree t = true →
    wsFree (serialize t) = true
  | .node ps [], h => by
    rw [WFtree, Bool.and_eq_true] at h
    rw [serialize, serializeNode, wsFree_cons]
    have hw := propsStr_ws (by
      rw [WFprops, Bool.and_eq_true, Bool.and_eq_true] at h
      exact h.1.1.1)
    simp [hw, isWs]
  | .node ps (c :: cs), h => by
    rw [WFtree, Bool.and_eq_true] at h
    have hps : wsFree (serializeNode ps) = true := by
      rw [serializeNode, wsFree_cons]
      have hw := propsStr_ws (by
        have h1 := h.1
        rw [WFprops, Bool.and_eq_true, Bool.and_eq_true] at h1
        exact h1.1.1)
      simp [hw, isWs]
    have hl := h.2
    rw [WFtreeList, Bool.and_eq_true] at hl
    rw [serialize]
    by_cases hcs : cs.isEmpty
    · rw [if_pos hcs, wsFree_append, Bool.and_eq_true]
      exact ⟨hps, serialize_ws c hl.1⟩
    · rw [if_neg hcs, wsFree_append, Bool.and_eq_true]
      refine ⟨hps, serializeList_ws (c :: cs) ?_⟩
      rw [WFtreeList, Bool.and_eq_true]
      exact hl

/-- a list of well-formed trees serializes without whitespace. -/
theorem serializeList_ws : ∀ cs : List SgfTree, WFtreeList cs = true →
    wsFree (serializeList cs) = true
  | [], _ => rfl
  | c :: cs, h => by
    rw [WFtreeList, Bool.and_eq_true] at h
    have h1 := serialize_ws c h.1
    have h2 := serializeList_ws cs h.2
    rw [serializeList, wsFree_iff]
    intro x hx
    simp only [List.mem_cons, List.mem_append] at hx
    rcases hx with ((rfl | hx) | rfl | hx) | hx
    · decide
    · exact wsFree_iff.1 h1 x hx
    · decide
    · cases hx
    · exact wsFree_iff.1 h2 x hx

end

/-! ### Round-trip: the parser recovers serialized well-formed material -/

/-- the key scanner consumes exactly an uppercase key and stops at the
opening bracket. -/
theorem scanUpper_key (k : Str) (hk : upperStr k = true) : ∀ rest,
    scanUpper (k ++ '[' :: rest) = .ok (k, '[' :: rest) := by
  induction k with
  | nil =>
    intro rest
    rw [List.nil_append, scanUpper]
    rw [if_neg (by decide : ¬(Char.isUpper '[' = true))]
  | cons c k ih =>
    intro rest
    rw [upperStr, List.all_cons, Bool.and_eq_true] at hk
    rw [List.cons_append, scanUpper, if_pos hk.1, ih hk.2 rest]

/-- the value scanner undoes escaping: on an escaped whitespace-free value
followed by the closing bracket it returns the value and the remainder. -/
theorem scanValueF_escape : ∀ v : Str, wsFree v = true → ∀ f rest,
    (escapeVal v).length + 2 ≤ f →
    scanValueF f (escapeVal v ++ ']' :: rest) = .ok (v, rest) := by
  intro v
  induction v with
  | nil =>
    intro _ f rest hf
    cases f with
    | zero => exact absurd hf (by omega)
    | succ f1 =>
      show scanValueF (f1 + 1) (']' :: rest) = .ok ([], rest)
      rw [scanValueF, if_pos rfl]
  | cons c v ih =>
    intro hw f rest hf
    rw [wsFree_cons, Bool.and_eq_true] at hw
    have hcns : isWs c = false := by simpa using hw.1
    have hct : c ≠ '\t' := by
      intro h
      rw [h] at hcns
      exact absurd hcns (by decide)
    by_cases hesc : c = '\\' ∨ c = ']'
    · have he : escapeVal (c :: v) = '\\' :: c :: escapeVal v := by
        simp only [escapeVal, List.flatMap_cons]
        rw [if_pos hesc]
        rfl
      rw [he] at hf ⊢
      simp only [List.length_cons] at hf
      cases f with
      | zero => exact absurd hf (by omega)
      | succ f1 =>
        cases f1 with
        | zero => exact absurd hf (by omega)
        | succ f2 =>
          rw [List.cons_append, List.cons_append, scanValueF]
          rw [if_neg (by decide : ¬('\\' = ']')), if_neg (by decide : ¬('\\' = '\t')),
            if_pos rfl]
          rw [scanValueEscF, if_pos hesc.symm]
          rw [ih hw.2 f2 rest (by omega)]
          rfl
    · have he : escapeVal (c :: v) = c :: escapeVal v := by
        simp only [escapeVal, List.flatMap_cons]
        rw [if_neg hesc]
        rfl
      rw [he] at hf ⊢
      simp only [List.length_cons] at hf
      cases f with
      | zero => exact absurd hf (by omega)
      | succ f1 =>
        rw [List.cons_append, scanValueF]
        rw [if_neg (fun h => hesc (Or.inr h)), if_neg hct,
          if_neg (fun h => hesc (Or.inl h))]
        rw [ih hw.2 f1 rest (by omega)]
        rfl

/-- the values loop consumes exactly the serialized bracketed values and
stops at the first non-bracket character. -/
theorem parseValuesF_vals : ∀ vs : List Str, (∀ v ∈ vs, wsFree v = true) →
    ∀ f d rest, d ≠ '[' → (valuesStr vs).length + 2 ≤ f →
    parseValuesF f (valuesStr vs ++ d :: rest) = .ok (vs, d :: rest) := by
  intro vs
  induction vs with
  | nil =>
    intro _ f d rest hd hf
    cases f with
    | zero => exact absurd hf (by omega)
    | succ f1 =>
      show parseValuesF (f1 + 1) (d :: rest) = .ok ([], d :: rest)
      rw [parseValuesF, if_neg hd]
  | cons v vs ih =>
    intro hws f d rest hd hf
    have hv : wsFree v = true := hws v (by simp)
    have hvs : ∀ u ∈ vs, wsFree u = true := fun u hu => hws u (by simp [hu])
    have hval : valuesStr (v :: vs) = '[' :: (escapeVal v ++ ']' :: valuesStr vs) := by
      simp [valuesStr]
    rw [hval] at hf ⊢
    simp only [List.length_cons, List.length_append] at hf
    cases f with
    | zero => exact absurd hf (by omega)
    | succ f1 =>
      rw [List.cons_append, parseValuesF, if_pos rfl]
      have harr : (escapeVal v ++ ']' :: valuesStr vs) ++ d :: rest
          = escapeVal v ++ ']' :: (valuesStr vs ++ d :: rest) := by simp
      rw [harr]
      rw [scanValueF_escape v hv f1 (valuesStr vs ++ d :: rest) (by omega)]
      dsimp only
      rw [ih hvs f1 d rest hd (by omega)]

/-- one serialized property parses back to itself, leaving the remainder
that follows its last bracketed value. -/
theorem getPropertyF_prop (p : Str × List Str)
    (hk : upperStr p.1 = true) (hvne : p.2 ≠ [])
    (hvws : ∀ v ∈ p.2, wsFree v = true) :
    ∀ f d rest, d ≠ '[' → (valuesStr p.2).length + 2 ≤ f →
    getPropertyF f (propStr p ++ d :: rest) = .ok (p, d :: rest) := by
  obtain ⟨k, vs⟩ := p
  cases vs with
  | nil => exact absurd rfl hvne
  | cons v vs =>
    intro f d rest hd hf
    have hf2 : (valuesStr (v :: vs)).length + 2 ≤ f := hf
    have hlen : (valuesStr (v :: vs)).length
        = (escapeVal v).length + (valuesStr vs).length + 2 := by
      simp [valuesStr]
      omega
    rw [getPropertyF]
    have harr : propStr (k, v :: vs) ++ d :: rest
        = k ++ '[' :: (escapeVal v ++ ']' :: (valuesStr vs ++ d :: rest)) := by
      simp [propStr, valuesStr]
    rw [harr]
    rw [scanUpper_key k hk (escapeVal v ++ ']' :: (valuesStr vs ++ d :: rest))]
    dsimp only
    rw [if_neg (by decide : ¬(Char.isLower '[' = true))]
    rw [if_neg (by decide : ¬('[' ≠ '['))]
    rw [scanValueF_escape v (hvws v (by simp)) f (valuesStr vs ++ d :: rest) (by omega)]
    dsimp only
    rw [parseValuesF_vals vs (fun u hu => hvws u (by simp [hu])) f d rest hd (by omega)]

/-- dict.update with a key absent from the dict appends the entry. -/
theorem dictUpdate_fresh (acc : List (Str × List Str)) (kv : Str × List Str)
    (h : ∀ q ∈ acc, q.1 ≠ kv.1) : dictUpdate acc kv = acc ++ [kv] := by
  rw [dictUpdate, if_neg]
  intro hc
  rw [List.any_eq_true] at hc
  obtain ⟨q, hq, hq2⟩ := hc
  exact h q hq (of_decide_eq_true hq2)

/-- the property loop consumes exactly a serialized well-formed property
map, appending the entries to the accumulator in order, and stops at the
structural character that follows. -/
theorem parsePropsF_props : ∀ ps : List (Str × List Str),
    WFpropEntries ps = true →
    nodupStr (ps.map Prod.fst) = true →
    tailNE (ps.map Prod.fst) = true →
    ∀ acc : List (Str × List Str), (∀ q ∈ acc, ∀ k ∈ ps.map Prod.fst, q.1 ≠ k) →
    ∀ f stop s2, (stop = '(' ∨ stop = ')' ∨ stop = ';') →
    (propsStr ps).length + ps.length + 2 ≤ f →
    parsePropsF f (propsStr ps ++ stop :: s2) acc = .ok (acc ++ ps, stop :: s2) := by
  intro ps
  induction ps with
  | nil =>
    intro _ _ _ acc _ f stop s2 hstop hf
    cases f with
    | zero => exact absurd hf (by omega)
    | succ f1 =>
      show parsePropsF (f1 + 1) (stop :: s2) acc = .ok (acc ++ [], stop :: s2)
      rw [parsePropsF, if_pos hstop]
      simp
  | cons p ps ih =>
    intro hent hnd htl acc hacc f stop s2 hstop hf
    rw [WFpropEntries, List.all_cons, Bool.and_eq_true] at hent
    obtain ⟨hp, hpsent⟩ := hent
    rw [Bool.and_eq_true, Bool.and_eq_true] at hp
    have hup : upperStr p.1 = true := hp.1.1
    have hvne : p.2 ≠ [] := by
      have h2 := hp.1.2
      intro he
      rw [he] at h2
      exact absurd h2 (by decide)
    have hvws : ∀ v ∈ p.2, wsFree v = true := by
      have h3 := hp.2
      rw [List.all_eq_true] at h3
      exact h3
    rw [List.map_cons, nodupStr, Bool.and_eq_true] at hnd
    obtain ⟨hfresh, hnd2⟩ := hnd
    rw [List.all_eq_true] at hfresh
    rw [List.map_cons, tailNE] at htl
    rw [List.all_eq_true] at htl
    obtain ⟨d, r2, heq, hd⟩ :
        ∃ d r2, propsStr ps ++ stop :: s2 = d :: r2 ∧ d ≠ '[' := by
      cases ps with
      | nil =>
        refine ⟨stop, s2, rfl, ?_⟩
        rcases hstop with rfl | rfl | rfl <;> decide
      | cons q r =>
        have hqne : q.1 ≠ [] := by
          have h4 := htl q.1 (by simp)
          intro he
          rw [he] at h4
          exact absurd h4 (by decide)
        cases hqk : q.1 with
        | nil => exact absurd hqk hqne
        | cons a k2 =>
          have ha : a.isUpper = true := by
            rw [List.all_cons, Bool.and_eq_true] at hpsent
            have h5 := hpsent.1
            rw [Bool.and_eq_true, Bool.and_eq_true] at h5
            have h6 := h5.1.1
            rw [hqk, upperStr, List.all_cons, Bool.and_eq_true] at h6
            exact h6.1
          refine ⟨a, k2 ++ valuesStr q.2 ++ (propsStr r ++ stop :: s2), ?_,
            (upper_ne_structural ha).2.2.2⟩
          simp [propsStr, propStr, hqk]
    obtain ⟨c0, t0, hcons, hc0⟩ :
        ∃ c0 t0, propStr p ++ d :: r2 = c0 :: t0 ∧
          ¬(c0 = '(' ∨ c0 = ')' ∨ c0 = ';') := by
      cases hk : p.1 with
      | nil =>
        cases hv2 : p.2 with
        | nil => exact absurd hv2 hvne
        | cons v vs =>
          refine ⟨'[', escapeVal v ++ ']' :: valuesStr vs ++ d :: r2, ?_, by decide⟩
          simp [propStr, hk, hv2, valuesStr]
      | cons a k2 =>
        have ha : a.isUpper = true := by
          rw [hk, upperStr, List.all_cons, Bool.and_eq_true] at hup
          exact hup.1
        obtain ⟨h1, h2, h3, _⟩ := upper_ne_structural ha
        refine ⟨a, k2 ++ valuesStr p.2 ++ d :: r2, ?_, by tauto⟩
        simp [propStr, hk]
    have hform : propsStr (p :: ps) ++ stop :: s2 = propStr p ++ d :: r2 := by
      rw [show propsStr (p :: ps) = propStr p ++ propsStr ps from by simp [propsStr],
        List.append_assoc, heq]
    have hplen : (propsStr (p :: ps)).length
        = (propStr p).length + (propsStr ps).length := by simp [propsStr]
    have hvlen : (valuesStr p.2).length ≤ (propStr p).length := by
      simp [propStr]
    cases f with
    | zero => exact absurd hf (by omega)
    | succ f1 =>
      rw [hform, hcons, parsePropsF, if_neg hc0]
      rw [← hcons]
      rw [getPropertyF_prop p hup hvne hvws f1 d r2 hd (by
        simp only [List.length_cons] at hf
        omega)]
      dsimp only
      rw [← heq, dictUpdate_fresh acc p (fun q hq => hacc q hq p.1 (by simp))]
      have hacc2 : ∀ q ∈ acc ++ [p], ∀ k ∈ ps.map Prod.fst, q.1 ≠ k := by
        intro q hq k hk
        rcases List.mem_append.1 hq with hq | hq
        · exact hacc q hq k (by simp [hk])
        · have hq2 : q = p := by simpa using hq
          subst hq2
          have h7 := hfresh k hk
          intro he
          rw [he] at h7
          simp at h7
      have htl2 : tailNE (ps.map Prod.fst) = true := by
        cases ps with
        | nil => rfl
        | cons q r =>
          rw [List.map_cons, tailNE, List.all_eq_true]
          intro k hk
          exact htl k (by simp [hk])
      rw [ih hpsent hnd2 htl2 (acc ++ [p]) hacc2 f1 stop s2 hstop (by
        simp only [List.length_cons] at hf
        omega)]
      simp

/-- the paren skipper is the identity at a semicolon. -/
theorem skipParens_semi (l : Str) : skipParens (';' :: l) = .ok (';' :: l) := by
  rw [skipParens, if_neg (by decide : ¬(';' = '('))]

/-- the paren skipper consumes an opening parenthesis. -/
theorem skipParens_paren (l : Str) : skipParens ('(' :: l) = skipParens l := by
  rw [skipParens, if_pos rfl]

/-- the children loop stops at the end of the input. -/
theorem parseChildrenF_nil (f : Nat) (hf : 1 ≤ f) :
    parseChildrenF f [] = .ok ([], []) := by
  cases f with
  | zero => exact absurd hf (by omega)
  | succ f1 => rw [parseChildrenF]

/-- the children loop stops at a closing parenthesis. -/
theorem parseChildrenF_stop (f : Nat) (l : Str) (hf : 1 ≤ f) :
    parseChildrenF f (')' :: l) = .ok ([], ')' :: l) := by
  cases f with
  | zero => exact absurd hf (by omega)
  | succ f1 => rw [parseChildrenF, if_pos rfl]

/-- a childless node parses back from its serialization: core form, stated
for any input whose paren-skipping yields the node text followed by a
closing parenthesis. -/
theorem parseNodeF_core (ps : List (Str × List Str)) (hps : WFprops ps = true) :
    ∀ f l s2, skipParens l = .ok (';' :: (propsStr ps ++ ')' :: s2)) →
    (propsStr ps).length + ps.length + 4 ≤ f →
    parseNodeF f l = .ok (.node ps [], s2) := by
  rw [WFprops, Bool.and_eq_true, Bool.and_eq_true] at hps
  intro f l s2 hsp hf
  cases f with
  | zero => exact absurd hf (by omega)
  | succ f1 =>
    rw [parseNodeF, hsp]
    dsimp only
    rw [if_neg (by decide : ¬(';' = ')'))]
    rw [parsePropsF_props ps hps.1.1 hps.1.2 hps.2 [] (by simp) f1 ')' s2
      (Or.inr (Or.inl rfl)) (by omega)]
    dsimp only
    rw [parseChildrenF_stop f1 s2 (by omega)]
    simp

/-- a childless node parses back from its bare serialization. -/
theorem parseNodeF_leaf (ps : List (Str × List Str)) (hps : WFprops ps = true) :
    ∀ f s2, (propsStr ps).length + ps.length + 4 ≤ f →
    parseNodeF f (serializeNode ps ++ ')' :: s2) = .ok (.node ps [], s2) := by
  intro f s2 hf
  refine parseNodeF_core ps hps f _ s2 ?_ hf
  rw [show serializeNode ps ++ ')' :: s2 = ';' :: (propsStr ps ++ ')' :: s2) from by
    simp [serializeNode]]
  exact skipParens_semi _

/-- a childless node parses back from its parenthesized serialization. -/
theorem parseNodeF_leafParen (ps : List (Str × List Str))
    (hps : WFprops ps = true) :
    ∀ f s2, (propsStr ps).length + ps.length + 4 ≤ f →
    parseNodeF f ('(' :: serializeNode ps ++ ')' :: s2) = .ok (.node ps [], s2) := by
  intro f s2 hf
  refine parseNodeF_core ps hps f _ s2 ?_ hf
  rw [show '(' :: serializeNode ps ++ ')' :: s2
      = '(' :: (';' :: (propsStr ps ++ ')' :: s2)) from by simp [serializeNode]]
  rw [skipParens_paren]
  exact skipParens_semi _

/-- a fan of serialized childless variations parses back as the same list
of children, stopping at the final closing parenthesis. -/
theorem parseChildrenF_fan : ∀ cs : List SgfTree,
    (∀ x ∈ cs, x.children = []) → WFtreeList cs = true →
    ∀ f s2, 3 * (serializeList cs).length + 2 ≤ f →
    parseChildrenF f (serializeList cs ++ ')' :: s2) = .ok (cs, ')' :: s2) := by
  intro cs
  induction cs with
  | nil =>
    intro _ _ f s2 hf
    exact parseChildrenF_stop f s2 (by omega)
  | cons c cs ih =>
    intro hleaf hwf f s2 hf
    rw [WFtreeList, Bool.and_eq_true] at hwf
    obtain ⟨psc, ccs⟩ := c
    have hccs : ccs = [] := hleaf (SgfTree.node psc ccs) (by simp)
    subst hccs
    have hpsc : WFprops psc = true := by
      have h1 := hwf.1
      rw [WFtree, Bool.and_eq_true] at h1
      exact h1.1
    have hser : serialize (SgfTree.node psc []) = serializeNode psc := rfl
    have hlen1 : (serializeNode psc).length = (propsStr psc).length + 1 := by
      simp [serializeNode]
    have hple : psc.length ≤ (propsStr psc).length := by
      have h1 := hpsc
      rw [WFprops, Bool.and_eq_true, Bool.and_eq_true] at h1
      exact props_count_le h1.1.1
    have hslen : (serializeList (SgfTree.node psc [] :: cs)).length
        = (propsStr psc).length + (serializeList cs).length + 3 := by
      rw [serializeList, hser]
      simp [hlen1]
      omega
    cases f with
    | zero => exact absurd hf (by omega)
    | succ f1 =>
      have harr : serializeList (SgfTree.node psc [] :: cs) ++ ')' :: s2
          = '(' :: (serializeNode psc ++ ')' :: (serializeList cs ++ ')' :: s2)) := by
        rw [serializeList, hser]
        simp
      rw [harr, parseChildrenF, if_neg (by decide : ¬('(' = ')'))]
      rw [show '(' :: (serializeNode psc ++ ')' :: (serializeList cs ++ ')' :: s2))
          = '(' :: serializeNode psc ++ ')' :: (serializeList cs ++ ')' :: s2) from by
        simp]
      rw [parseNodeF_leafParen psc hpsc f1 (serializeList cs ++ ')' :: s2) (by
        rw [hslen] at hf
        omega)]
      dsimp only
      rw [ih (fun x hx => hleaf x (by simp [hx])) hwf.2 f1 s2 (by
        rw [hslen] at hf
        omega)]

/-- main round-trip step: a serialized well-formed good-shape tree followed
by a closing parenthesis parses back to the same tree with nothing left. -/
theorem parseNodeF_serialize : ∀ n : Nat, ∀ t : SgfTree,
    (serialize t).length ≤ n →
    WFtree t = true → goodShape t = true →
    ∀ f, 3 * (serialize t).length + 4 ≤ f →
    parseNodeF f (serialize t ++ [')']) = .ok (t, []) := by
  intro n
  induction n with
  | zero =>
    intro t hle
    obtain ⟨tl, htl⟩ := serialize_head t
    rw [htl] at hle
    simp at hle
  | succ n ihn =>
    intro t hle hwf hgs f hf
    obtain ⟨ps, cs⟩ := t
    rw [WFtree, Bool.and_eq_true] at hwf
    have hple : ps.length ≤ (propsStr ps).length := by
      have h1 := hwf.1
      rw [WFprops, Bool.and_eq_true, Bool.and_eq_true] at h1
      exact props_count_le h1.1.1
    cases cs with
    | nil =>
      have hser : serialize (SgfTree.node ps []) = serializeNode ps := rfl
      rw [hser] at hf ⊢
      have hlen1 : (serializeNode ps).length = (propsStr ps).length + 1 := by
        simp [serializeNode]
      exact parseNodeF_leaf ps hwf.1 f [] (by omega)
    | cons c cs2 =>
      rw [goodShape] at hgs
      have hwl := hwf.2
      rw [WFtreeList, Bool.and_eq_true] at hwl
      by_cases hc2 : cs2 = []
      · subst hc2
        simp only [List.isEmpty_nil, if_true] at hgs
        have hser : serialize (SgfTree.node ps [c]) = serializeNode ps ++ serialize c :=
          rfl
        obtain ⟨tl, htlc⟩ := serialize_head c
        have hlen1 : (serializeNode ps).length = (propsStr ps).length + 1 := by
          simp [serializeNode]
        have hlen2 : (serialize c).length = tl.length + 1 := by
          rw [htlc]
          simp
        have hflen : 3 * ((propsStr ps).length + 1 + (serialize c).length) + 4 ≤ f := by
          rw [hser] at hf
          simp only [List.length_append, hlen1] at hf
          omega
        have hnle : (serialize c).length ≤ n := by
          rw [hser] at hle
          simp only [List.length_append, hlen1] at hle
          omega
        rw [hser]
        cases f with
        | zero => exact absurd hflen (by omega)
        | succ f1 =>
          cases f1 with
          | zero => exact absurd hflen (by omega)
          | succ f2 =>
            have harr : (serializeNode ps ++ serialize c) ++ [')']
                = ';' :: (propsStr ps ++ (serialize c ++ [')'])) := by
              simp [serializeNode]
            rw [harr, parseNodeF, skipParens_semi]
            dsimp only
            rw [if_neg (by decide : ¬(';' = ')'))]
            have harr2 : serialize c ++ [')'] = ';' :: (tl ++ [')']) := by
              rw [htlc]
              rfl
            rw [harr2]
            have h1 := hwf.1
            rw [WFprops, Bool.and_eq_true, Bool.and_eq_true] at h1
            rw [parsePropsF_props ps h1.1.1 h1.1.2 h1.2 [] (by simp) (f2 + 1) ';'
              (tl ++ [')']) (Or.inr (Or.inr rfl)) (by omega)]
            dsimp only
            rw [parseChildrenF, if_neg (by decide : ¬(';' = ')'))]
            rw [← harr2]
            rw [ihn c hnle hwl.1 hgs f2 (by omega)]
            dsimp only
            rw [parseChildrenF_nil f2 (by omega)]
            dsimp only
            simp
      · have hne : ¬(cs2.isEmpty = true) := by
          simpa [List.isEmpty_iff] using hc2
        rw [if_neg hne] at hgs
        have hleaves : ∀ x ∈ c :: cs2, x.children = [] := by
          rw [List.all_eq_true] at hgs
          intro x hx
          have h2 := hgs x hx
          rwa [List.isEmpty_iff] at h2
        have hser : serialize (SgfTree.node ps (c :: cs2))
            = serializeNode ps ++ serializeList (c :: cs2) := by
          rw [serialize, if_neg hne]
        have hlen1 : (serializeNode ps).length = (propsStr ps).length + 1 := by
          simp [serializeNode]
        have hslc : serializeList (c :: cs2)
            = '(' :: (serialize c ++ [')'] ++ serializeList cs2) := by
          rw [serializeList]
          simp
        have hflen : 3 * ((propsStr ps).length + 1
            + (serializeList (c :: cs2)).length) + 4 ≤ f := by
          rw [hser] at hf
          simp only [List.length_append, hlen1] at hf
          omega
        rw [hser]
        cases f with
        | zero => exact absurd hflen (by omega)
        | succ f1 =>
          have harr : (serializeNode ps ++ serializeList (c :: cs2)) ++ [')']
              = ';' :: (propsStr ps ++ ('(' ::
                ((serialize c ++ [')'] ++ serializeList cs2) ++ [')']))) := by
            rw [hslc]
            simp [serializeNode]
          rw [harr, parseNodeF, skipParens_semi]
          dsimp only
          rw [if_neg (by decide : ¬(';' = ')'))]
          have h1 := hwf.1
          rw [WFprops, Bool.and_eq_true, Bool.and_eq_true] at h1
          rw [parsePropsF_props ps h1.1.1 h1.1.2 h1.2 [] (by simp) f1 '('
            ((serialize c ++ [')'] ++ serializeList cs2) ++ [')'])
            (Or.inl rfl) (by omega)]
          dsimp only
          have harr2 : '(' :: ((serialize c ++ [')'] ++ serializeList cs2) ++ [')'])
              = serializeList (c :: cs2) ++ ')' :: [] := by
            rw [hslc]
            simp
          rw [harr2]
          rw [parseChildrenF_fan (c :: cs2) hleaves hwf.2 f1 [] (by omega)]
          dsimp only
          simp

/-- filtering whitespace out of a whitespace-free string is the identity. -/
theorem filter_of_wsFree {l : Str} (h : wsFree l = true) :
    l.filter (fun c => !(isWs c)) = l := by
  induction l with
  | nil => rfl
  | cons c l ih =>
    rw [wsFree_cons, Bool.and_eq_true] at h
    simp [List.filter_cons, h.1, ih h.2]

/-- unfolding of parse on an input that starts with an opening
parenthesis. -/
theorem parse_eq (rest : Str) : parse ('(' :: rest) =
    match parseNodeF (4 * (('(' :: rest).filter (fun c => !(isWs c))).length + 8)
        ((('(' :: rest).filter (fun c => !(isWs c))).drop 1) with
    | .error e => .error e
    | .ok (t, _) => .ok t := rfl

/-- C3 (amended): for every tree produced by parse in which each node with
two or more children has only childless children, parsing the
parenthesized serialization returns exactly the original tree. -/
theorem C3_roundtrip_amended {s : Str} {t : SgfTree}
    (hp : parse s = .ok t) (hg : goodShape t = true) :
    parse ('(' :: serialize t ++ [')']) = .ok t := by
  have hwf : WFtree t = true := parse_wf hp
  have hws : wsFree (serialize t) = true := serialize_ws t hwf
  rw [show '(' :: serialize t ++ [')'] = '(' :: (serialize t ++ [')']) from by simp]
  rw [parse_eq]
  have hfil : (serialize t ++ [')']).filter (fun c => !(isWs c))
      = serialize t ++ [')'] := by
    apply filter_of_wsFree
    rw [wsFree_append, Bool.and_eq_true]
    exact ⟨hws, by decide⟩
  rw [List.filter_cons]
  rw [if_pos (by decide : (!(isWs '(')) = true)]
  rw [hfil]
  rw [List.drop_one, List.tail_cons]
  rw [parseNodeF_serialize (serialize t).length t le_rfl hwf hg
    (4 * ('(' :: (serialize t ++ [')'])).length + 8) (by
      simp only [List.length_cons, List.length_append]
      omega)]

set_option maxRecDepth 8000 in
/-- C3 (amended) witness: a concrete parse-produced tree with a terminal
two-variation fan round-trips to itself. -/
theorem C3_roundtrip_amended_witness :
    parse ('(' :: serialize (SgfTree.node [( "C".data, [ "x".data])]
      [SgfTree.node [( "A".data, [ "a".data])] [],
       SgfTree.node [( "B".data, [ "b".data])] []]) ++ [')'])
    = .ok (SgfTree.node [( "C".data, [ "x".data])]
      [SgfTree.node [( "A".data, [ "a".data])] [],
       SgfTree.node [( "B".data, [ "b".data])] []]) :=
  C3_roundtrip_amended
    (show parse ( "(;C[x](;A[a])(;B[b]))".data)
      = Except.ok (SgfTree.node [( "C".data, [ "x".data])]
        [SgfTree.node [( "A".data, [ "a".data])] [],
         SgfTree.node [( "B".data, [ "b".data])] []]) from rfl)
    (by rfl)


end GoInsight
